import Mathlib

/-!
Verification of the `python_env_manager` repository against its natural-language
specification.  The Python sources are shallowly embedded: Python strings become
`List Char`, `os.environ` and `sys.path` become explicit state, the filesystem
and the subprocess layer become oracle functions, and fallible Python code
returns `Except PyExc`.  Every definition follows the corresponding source
function; deviations forced by the embedding are noted in comments.
-/

namespace PyEnvMgr

/-- Python strings are modelled as lists of characters. -/
abbrev Str := List Char

deriving instance DecidableEq for Except

/-- Exceptions that the embedded code can raise. -/
inductive PyExc where
  | valueError : PyExc
  | runtimeError : PyExc
  | typeError : PyExc
  | attributeError : PyExc
  | keyError : PyExc
  | devToolsError : PyExc
  | calledProcessError (returncode : Int) : PyExc
  deriving DecidableEq

/-! ## Basic string helpers (embedding `str` and `os.path` operations) -/

/-- Whitespace test used by `str.strip` (the characters relevant here). -/
def isWsChar (c : Char) : Bool := c = ' ' || c = '\t' || c = '\n' || c = '\r'

/-- Drop leading whitespace (`str.lstrip`). -/
def skipWs : Str → Str
  | [] => []
  | c :: cs => if isWsChar c then skipWs cs else c :: cs

/-- Python `str.strip`: drop whitespace from both ends. -/
def strip (s : Str) : Str := ((skipWs (skipWs s).reverse)).reverse

/-- Test whether the first list is a prefix of the second (Boolean). -/
def isPfxOf : Str → Str → Bool
  | [], _ => true
  | _ :: _, [] => false
  | c :: cs, d :: ds => c = d && isPfxOf cs ds

/-- Test whether the first list is a suffix of the second (Boolean). -/
def isSfxOf (s t : Str) : Bool := isPfxOf s.reverse t.reverse

/-- Python substring test `needle in haystack`. -/
def strContains : Str → Str → Bool
  | h, n =>
    match h with
    | [] => n.isEmpty
    | _ :: t => isPfxOf n h || strContains t n

/-- Python `str.lower` (per-character lowering suffices for ASCII keys). -/
def toLowerStr (s : Str) : Str := s.map Char.toLower

/-- Python `" ".join(parts)`. -/
def joinSpace (parts : List Str) : Str := (parts.intersperse [' ']).flatten

/-- Association lookup modelling `dict.get` / `key in dict` (keys are strings). -/
def alookup (k : Str) : List (Str × α) → Option α
  | [] => none
  | (k2, v) :: tl => if k2 = k then some v else alookup k tl

/-- Association update modelling `dict.__setitem__`: replace in place, else append
(Python dicts keep the original insertion position on overwrite). -/
def aset (k : Str) (v : α) : List (Str × α) → List (Str × α)
  | [] => [(k, v)]
  | (k2, v2) :: tl => if k2 = k then (k, v) :: tl else (k2, v2) :: aset k v tl

/-- Split a POSIX path on `/` separators. -/
def splitSlash : Str → List Str
  | [] => [[]]
  | c :: t =>
    let r := splitSlash t
    if c = '/' then [] :: r else (c :: r.headD []) :: r.tail

/-- Process `..` components the way `posixpath.normpath` does. -/
def normComps (isAbs : Bool) : List Str → List Str → List Str
  | acc, [] => acc
  | acc, c :: rest =>
    if c = ['.', '.'] then
      if isAbs then normComps isAbs acc.dropLast rest
      else if acc = [] || acc.getLast? = some ['.', '.'] then normComps isAbs (acc ++ [c]) rest
      else normComps isAbs acc.dropLast rest
    else normComps isAbs (acc ++ [c]) rest

/-- Embedding of `posixpath.normpath` (the leading-double-slash special case is
not reproduced; no path in this development uses it). -/
def normPosix (p : Str) : Str :=
  let isAbs := isPfxOf ['/'] p
  let comps := (splitSlash p).filter (fun c => c ≠ [] && c ≠ ['.'])
  let out := normComps isAbs [] comps
  let body := (out.intersperse ['/']).flatten
  if isAbs then '/' :: body else if body = [] then ['.'] else body

/-- Embedding of `os.path.abspath` on POSIX: join with the working directory
and normalise. -/
def abspath (cwd p : Str) : Str :=
  normPosix (if isPfxOf ['/'] p then p else cwd ++ '/' :: p)

/-- Embedding of `os.path.join` for the two-argument uses in the sources. -/
def joinPath (a b : Str) : Str :=
  if isPfxOf ['/'] b then b
  else if a ≠ [] && a.getLast? = some '/' then a ++ b
  else a ++ '/' :: b

/-- Embedding of `os.path.basename` (POSIX). -/
def basename (p : Str) : Str := (p.reverse.takeWhile (fun c => c ≠ '/')).reverse

/-! ## JSON values (embedding the `json` module as used by `GlobalState`)

JSON numbers are modelled as integers: every number stored by the claims under
scrutiny is integral, and floating-point cannot be stated faithfully here.
`JValue`/`JList`/`JObj` form a mutual inductive so that all functions over
them are structurally recursive (and hence kernel-reducible). -/

mutual
inductive JValue where
  | null : JValue
  | bool (b : Bool) : JValue
  | num (n : Int) : JValue
  | str (s : Str) : JValue
  | arr (xs : JList) : JValue
  | obj (ms : JObj) : JValue
  deriving DecidableEq
inductive JList where
  | nil : JList
  | cons (hd : JValue) (tl : JList) : JList
  deriving DecidableEq
inductive JObj where
  | nil : JObj
  | cons (key : Str) (val : JValue) (tl : JObj) : JObj
  deriving DecidableEq
end

/-- Decimal digit character. -/
def digitChar (d : Nat) : Char := Char.ofNat (48 + d)

/-- Fuel-driven decimal rendering of a natural number (structural, so that the
kernel can evaluate it; `encNat` supplies enough fuel). -/
def encNatGo : Nat → Nat → Str
  | 0, _ => []
  | fuel + 1, n =>
    if n < 10 then [digitChar n]
    else encNatGo fuel (n / 10) ++ [digitChar (n % 10)]

/-- Decimal rendering of a natural number. -/
def encNat (n : Nat) : Str := encNatGo (n + 1) n

/-- Decimal rendering of an integer, as `json.dumps` prints Python ints. -/
def encInt (n : Int) : Str :=
  if n < 0 then '-' :: encNat (-n).toNat else encNat n.toNat

/-- Lower-case hexadecimal digit. -/
def hexDigit (n : Nat) : Char :=
  if n < 10 then digitChar n else Char.ofNat (97 + (n - 10))

/-- Escape of a single character inside a JSON string, following `json.dumps`
with its default `ensure_ascii=True` (characters beyond the basic plane would
need surrogate pairs; the verified theorems restrict strings to printable
ASCII, where `encChar c = [c]`). -/
def encChar (c : Char) : Str :=
  if c = '"' then ['\\', '"']
  else if c = '\\' then ['\\', '\\']
  else if c = '\n' then ['\\', 'n']
  else if c = '\t' then ['\\', 't']
  else if c = '\r' then ['\\', 'r']
  else if c.toNat = 8 then ['\\', 'b']
  else if c.toNat = 12 then ['\\', 'f']
  else if c.toNat < 32 || 126 < c.toNat then
    ['\\', 'u', hexDigit (c.toNat / 4096 % 16), hexDigit (c.toNat / 256 % 16),
     hexDigit (c.toNat / 16 % 16), hexDigit (c.toNat % 16)]
  else [c]

/-- Escape a JSON string body. -/
def encStrBody : Str → Str
  | [] => []
  | c :: t => encChar c ++ encStrBody t

mutual
/-- Embedding of `json.dumps` with its default separators `", "` and `": "`. -/
def encVal : JValue → Str
  | .null => "null".toList
  | .bool true => "true".toList
  | .bool false => "false".toList
  | .num n => encInt n
  | .str s => '"' :: encStrBody s ++ ['"']
  | .arr xs => '[' :: encList xs ++ [']']
  | .obj ms => '{' :: encObj ms ++ ['}']
termination_by structural v => v
/-- Render the elements of a JSON array. -/
def encList : JList → Str
  | .nil => []
  | .cons x tl =>
    encVal x ++ (match tl with | .nil => [] | .cons _ _ => [',', ' ']) ++ encList tl
termination_by structural xs => xs
/-- Render the members of a JSON object. -/
def encObj : JObj → Str
  | .nil => []
  | .cons k v tl =>
    '"' :: encStrBody k ++ '"' :: ':' :: ' ' :: encVal v ++
      (match tl with | .nil => [] | .cons _ _ _ => [',', ' ']) ++ encObj tl
termination_by structural ms => ms
end

/-- Hexadecimal value of a character, if any. -/
def hexVal (c : Char) : Option Nat :=
  if c.isDigit then some (c.toNat - 48)
  else if 97 ≤ c.toNat && c.toNat ≤ 102 then some (c.toNat - 87)
  else if 65 ≤ c.toNat && c.toNat ≤ 70 then some (c.toNat - 55)
  else none

/-- Decode a single-character JSON escape. -/
def escChar (e : Char) : Option Char :=
  if e = '"' then some '"'
  else if e = '\\' then some '\\'
  else if e = '/' then some '/'
  else if e = 'n' then some '\n'
  else if e = 't' then some '\t'
  else if e = 'r' then some '\r'
  else if e = 'b' then some (Char.ofNat 8)
  else if e = 'f' then some (Char.ofNat 12)
  else none

mutual
/-- Parse a JSON string body up to the closing quote (embedding the string
part of `json.loads`; surrogate-pair recombination is not reproduced). -/
def parseStrBody : Str → Option (Str × Str)
  | [] => none
  | c :: r =>
    if c = '"' then some ([], r)
    else if c = '\\' then parseEsc r
    else (parseStrBody r).map (fun p => (c :: p.1, p.2))
termination_by structural s => s
/-- Parse what follows a backslash inside a JSON string. -/
def parseEsc : Str → Option (Str × Str)
  | [] => none
  | e :: t =>
    if e = 'u' then
      match t with
      | a :: b :: c2 :: d :: t2 => do
        let na ← hexVal a
        let nb ← hexVal b
        let nc ← hexVal c2
        let nd ← hexVal d
        let p ← parseStrBody t2
        pure (Char.ofNat (4096 * na + 256 * nb + 16 * nc + nd) :: p.1, p.2)
      | _ => none
    else do
      let ce ← escChar e
      let p ← parseStrBody t
      pure (ce :: p.1, p.2)
termination_by structural s => s
end

/-- Take the leading run of decimal digits. -/
def takeDigits : Str → Str × Str
  | [] => ([], [])
  | c :: t =>
    if c.isDigit then
      let p := takeDigits t
      (c :: p.1, p.2)
    else ([], c :: t)

/-- Numeric value of a digit string. -/
def digitsToNat (l : Str) : Nat := l.foldl (fun a c => 10 * a + (c.toNat - 48)) 0

/-- Parse an integer token.  A number continuing with `.`, `e` or `E` would be
a float, which the integer-valued model deliberately rejects instead of
misreading. -/
def parseIntTok (s : Str) : Option (Int × Str) :=
  let neg : Bool := s.headD ' ' = '-'
  let s1 := if neg then s.tail else s
  match takeDigits s1 with
  | ([], _) => none
  | (ds, r) =>
    if r.headD ' ' = '.' || r.headD ' ' = 'e' || r.headD ' ' = 'E' then none
    else some ((if neg then -(digitsToNat ds : Int) else (digitsToNat ds : Int)), r)

mutual
/-- Fuel-driven embedding of `json.loads` (value position).  `jsonDecode`
supplies fuel exceeding the input length, which is always sufficient. -/
def parseVal : Nat → Str → Option (JValue × Str)
  | 0, _ => none
  | fuel + 1, cs =>
    let t := skipWs cs
    if isPfxOf "null".toList t then some (.null, t.drop 4)
    else if isPfxOf "true".toList t then some (.bool true, t.drop 4)
    else if isPfxOf "false".toList t then some (.bool false, t.drop 5)
    else if t.headD ' ' = '"' then (parseStrBody t.tail).map (fun p => (.str p.1, p.2))
    else if t.headD ' ' = '[' then
      (let r2 := skipWs t.tail
       if r2.headD ' ' = ']' then some (.arr .nil, r2.tail)
       else (parseItems fuel r2).map (fun p => (.arr p.1, p.2)))
    else if t.headD ' ' = '{' then
      (let r2 := skipWs t.tail
       if r2.headD ' ' = '}' then some (.obj .nil, r2.tail)
       else (parseFields fuel r2).map (fun p => (.obj p.1, p.2)))
    else (parseIntTok t).map (fun p => (.num p.1, p.2))
/-- Parse the elements of a non-empty JSON array, consuming the closing `]`. -/
def parseItems : Nat → Str → Option (JList × Str)
  | 0, _ => none
  | fuel + 1, cs => do
    let (v, r) ← parseVal fuel cs
    if (skipWs r).headD ' ' = ',' then do
      let (vs, r3) ← parseItems fuel (skipWs (skipWs r).tail)
      pure (.cons v vs, r3)
    else if (skipWs r).headD ' ' = ']' then pure (.cons v .nil, (skipWs r).tail)
    else none
/-- Parse the members of a non-empty JSON object, consuming the closing brace. -/
def parseFields : Nat → Str → Option (JObj × Str)
  | 0, _ => none
  | fuel + 1, cs =>
    if (skipWs cs).headD ' ' = '"' then do
      let (k, r1) ← parseStrBody (skipWs cs).tail
      if (skipWs r1).headD ' ' = ':' then do
        let (v, r3) ← parseVal fuel (skipWs (skipWs r1).tail)
        if (skipWs r3).headD ' ' = ',' then do
          let (ms, r5) ← parseFields fuel (skipWs (skipWs r3).tail)
          pure (.cons k v ms, r5)
        else if (skipWs r3).headD ' ' = '}' then pure (.cons k v .nil, (skipWs r3).tail)
        else none
      else none
    else none
end

/-- Embedding of `json.loads`: parse one value and require only whitespace
after it. -/
def jsonDecode (s : Str) : Option JValue :=
  match parseVal (s.length + 1) s with
  | some (v, r) => if skipWs r = [] then some v else none
  | none => none

/-- Boundary test after a number token: the next character (if any) must not
extend the number.  Encoded values are always followed by such a boundary. -/
def numBoundary : Str → Bool
  | [] => true
  | c :: _ => !(c.isDigit || c = '.' || c = 'e' || c = 'E')

/-- Characters whose JSON encoding is themselves and which survive the INI
layer: printable ASCII excluding `"`, `\` and `%`. -/
def safeChar (c : Char) : Bool :=
  32 ≤ c.toNat && c.toNat ≤ 126 && c ≠ '"' && c ≠ '\\' && c ≠ '%'

/-! Node-count measure on JSON values, used for strong induction in proofs. -/

mutual
/-- Node count of a JSON value. -/
def jsize : JValue → Nat
  | .arr xs => 1 + jsizeL xs
  | .obj ms => 1 + jsizeO ms
  | _ => 1
termination_by structural v => v
/-- Node count of a JSON array tail. -/
def jsizeL : JList → Nat
  | .nil => 0
  | .cons x tl => 1 + jsize x + jsizeL tl
termination_by structural xs => xs
/-- Node count of a JSON object tail. -/
def jsizeO : JObj → Nat
  | .nil => 0
  | .cons _ v tl => 1 + jsize v + jsizeO tl
termination_by structural ms => ms
end

/-- Characters acceptable in a `GlobalState` key for the round-trip theorems:
stable under `str.lower` (so `optionxform` keeps the key unchanged), not
whitespace, and none of the characters that steer the INI parser (`=`, `:`,
`[`, `#`, `;`). -/
def keySafeChar (c : Char) : Bool :=
  Char.toLower c = c && !isWsChar c
    && c ≠ '=' && c ≠ ':' && c ≠ '[' && c ≠ '#' && c ≠ ';'

/-- A key usable in the round-trip theorems. -/
def keySafe (k : Str) : Bool := !k.isEmpty && k.all keySafeChar

/-- A raw option value that survives the INI writer/reader unchanged:
non-empty, no whitespace at either end (so `strip` is the identity), free of
`%` (so interpolation is the identity) and of line breaks (values live on a
single line of the backing file). -/
def entryValOk (v : Str) : Bool :=
  !v.isEmpty && !isWsChar (v.headD 'x') && !isWsChar (v.reverse.headD 'x')
    && v.all (fun c => c ≠ '%' && c ≠ '\n')

mutual
/-- Values whose strings (and object keys) consist of `safeChar` characters. -/
def jsafe : JValue → Bool
  | .null => true
  | .bool _ => true
  | .num _ => true
  | .str s => s.all safeChar
  | .arr xs => jsafeL xs
  | .obj ms => jsafeO ms
termination_by structural v => v
/-- Element-wise safety for arrays. -/
def jsafeL : JList → Bool
  | .nil => true
  | .cons x tl => jsafe x && jsafeL tl
termination_by structural xs => xs
/-- Member-wise safety for objects. -/
def jsafeO : JObj → Bool
  | .nil => true
  | .cons k v tl => k.all safeChar && jsafe v && jsafeO tl
termination_by structural ms => ms
end

/-! ## configparser + GlobalState (src/env_manager/program_state.py)

`GlobalState` is a `dict` subclass persisted through `configparser`; the store
is modelled as an association list, the backing file as a list of text lines
(`configparser` reads and writes the file line by line). -/

/-- One section's options (option name, raw value). -/
abbrev IniSection := List (Str × Str)

/-- A parsed configuration: sections in file order. -/
abbrev IniConfig := List (Str × IniSection)

/-- Split a line at the first `=` or `:` delimiter, as configparser's option
pattern does. -/
def splitDelim : Str → Option (Str × Str)
  | [] => none
  | c :: t =>
    if c = '=' || c = ':' then some ([], t)
    else (splitDelim t).map (fun p => (c :: p.1, p.2))

/-- Line-by-line embedding of `ConfigParser.read` (strict mode, default
`optionxform = str.lower`).  Continuation lines (a non-blank line starting
with whitespace) are not exercised by anything this file writes or reads, and
are modelled as parse errors. -/
def iniParseGo : List Str → IniConfig → Option (Str × IniSection) → Except Unit IniConfig
  | [], done, cur => .ok (done ++ (match cur with | some s => [s] | none => []))
  | line :: rest, done, cur =>
    let t := strip line
    if t = [] then iniParseGo rest done cur
    else if t.headD ' ' = '#' || t.headD ' ' = ';' then iniParseGo rest done cur
    else if isWsChar (line.headD 'x') then .error ()
    else if t.headD ' ' = '[' then
      (let u := t.tail
       if u.getLast? = some ']' then
         let name := u.dropLast
         let closed := done ++ (match cur with | some s => [s] | none => [])
         if (alookup name closed).isSome then .error ()
         else iniParseGo rest closed (some (name, []))
       else .error ())
    else
      match cur with
      | none => .error ()
      | some nv =>
        match splitDelim t with
        | none => .error ()
        | some kv =>
          let k := toLowerStr (strip kv.1)
          let v := strip kv.2
          if (alookup k nv.2).isSome then .error ()
          else iniParseGo rest done (some (nv.1, nv.2 ++ [(k, v)]))

/-- Parse a whole file (as lines). -/
def iniParse (lines : List Str) : Except Unit IniConfig := iniParseGo lines [] none

/-- Fuel-driven embedding of `BasicInterpolation.before_get`: `%%` becomes `%`,
`%(name)s` is substituted (with the substituted text interpolated in turn),
and any other `%` raises `InterpolationSyntaxError` (modelled as `none`).
The fuel conflates scan length and the interpolation depth limit; it is ample
for every input considered. -/
def interpAux (m : IniSection) : Nat → Str → Option Str
  | 0, _ => none
  | _ + 1, [] => some []
  | fuel + 1, c :: r =>
    if c = '%' then
      match r with
      | [] => none
      | d :: t =>
        if d = '%' then (interpAux m fuel t).map (fun s => '%' :: s)
        else if d = '(' then
          (match t.dropWhile (fun x => x ≠ ')') with
           | ')' :: 's' :: t2 => do
             let raw ← alookup (toLowerStr (t.takeWhile (fun x => x ≠ ')'))) m
             let sub ← interpAux m fuel raw
             let t2i ← interpAux m fuel t2
             pure (sub ++ t2i)
           | _ => none)
        else none
    else (interpAux m fuel r).map (fun s => c :: s)

/-- Interpolate one raw option value against a section. -/
def interpValue (m : IniSection) (v : Str) : Option Str := interpAux m (11 * (v.length + 1)) v

/-- Fuel-driven embedding of `BasicInterpolation.before_set`, which accepts a
value only when every `%` belongs to `%%` or a `%(name)s` reference. -/
def setValOk : Nat → Str → Bool
  | 0, _ => false
  | _ + 1, [] => true
  | fuel + 1, c :: r =>
    if c = '%' then
      match r with
      | [] => false
      | d :: t =>
        if d = '%' then setValOk fuel t
        else if d = '(' then
          (match t.dropWhile (fun x => x ≠ ')') with
           | ')' :: 's' :: t2 => setValOk fuel t2
           | _ => false)
        else false
    else setValOk fuel r

/-- Acceptance test applied by `config.set` to each value. -/
def beforeSetOk (v : Str) : Bool := setValOk (v.length + 1) v

/-- The text `ConfigParser.write` produces for the single `state` section:
the header, one `key = value` line per option, and a blank line. -/
def iniRender (entries : IniSection) : List Str :=
  "[state]".toList :: entries.map (fun kv => kv.1 ++ " = ".toList ++ kv.2) ++ [[]]

/-- The in-memory `GlobalState` mapping. -/
abbrev GState := List (Str × JValue)

/-- The `config.set` loop of `GlobalState.save`: each key is passed through
`optionxform` (lower-cased) and each JSON-encoded value must pass
`before_set`, else `ValueError` propagates out of `save`. -/
def gsSetAll (st : GState) : Except Unit IniSection :=
  st.foldlM
    (fun acc kv =>
      let v := encVal kv.2
      if beforeSetOk v then .ok (aset (toLowerStr kv.1) v acc) else .error ())
    []

/-- Embedding of `GlobalState.save`: build the `state` section, then write it. -/
def gsSave (st : GState) : Except Unit (List Str) :=
  (gsSetAll st).map iniRender

/-- Per-value decoding in `GlobalState.load`: `json.loads`, falling back to the
raw string on `JSONDecodeError`. -/
def jsonDecodeOrRaw (v : Str) : JValue :=
  match jsonDecode v with
  | some j => j
  | none => .str v

/-- Embedding of `GlobalState.load`.  `file = none` models a missing backing
file (state untouched).  A `config.read` failure is caught before `clear()`,
leaving the state untouched; a failure while `config.items('state')`
interpolates values is caught after `clear()`, leaving the state empty.
`load` itself never raises. -/
def gsLoad (st : GState) (file : Option (List Str)) : GState :=
  match file with
  | none => st
  | some lines =>
    match iniParse lines with
    | .error _ => st
    | .ok cfg =>
      match alookup "state".toList cfg with
      | none => []
      | some items =>
        match items.mapM (fun kv => (interpValue items kv.2).map (fun v => (kv.1, v))) with
        | none => []
        | some kvs => kvs.map (fun kv => (kv.1, jsonDecodeOrRaw kv.2))

/-! ## Environment (src/env_manager/environment.py and the older copy inside
src/env_manager/env_manager.py) -/

/-- Paths and flags of a resolved Python environment (fields as in the
source classes). -/
structure Environment where
  root : Str
  bin : Str
  lib : Str
  python : Str
  name : Str
  is_virtual : Bool
  deriving DecidableEq

/-- Ambient interpreter/platform facts read by the constructors. -/
structure SysCtx where
  win : Bool
  cwd : Str
  executable : Str
  prefixDir : Str
  deriving DecidableEq

/-- The process environment-variable table (`os.environ`). -/
abbrev EnvTable := List (Str × Str)

/-- Boolean `re.search` for a literal followed by a decimal digit (covers the
patterns of shape `lit\d+`). -/
def reSearchLitDigit (lit : Str) : Str → Bool
  | [] => false
  | s@(_ :: t) =>
    (isPfxOf lit s && ((s.drop lit.length).headD ' ').isDigit) || reSearchLitDigit lit t

namespace environment_py

/-- Embedding of `Environment.is_local` from environment.py: each regex in the
source's pattern table is translated to the equivalent substring/suffix test. -/
def is_local (win : Bool) (path : Str) : Bool :=
  if win then
    reSearchLitDigit "Python".toList path
    || reSearchLitDigit "AppData\\Local\\Programs\\Python\\Python".toList path
    || strContains path "Anaconda3".toList
    || strContains path "Miniconda3".toList
  else
    isSfxOf "/usr".toList path
    || isSfxOf "/usr/local".toList path
    || isSfxOf "/usr/bin".toList path
    || isSfxOf "/usr/local/bin".toList path
    || isSfxOf "/opt/homebrew/bin".toList path
    || strContains path "/Library/Frameworks/Python.framework".toList
    || isSfxOf "/anaconda/bin".toList path
    || isSfxOf "/anaconda3/bin".toList path
    || isSfxOf "/miniconda/bin".toList path
    || isSfxOf "/miniconda3/bin".toList path

/-- Embedding of `Environment.__init__` from environment.py for the path-based
mode (the kwargs mode assigns fields verbatim and bypasses this logic).
`path or os.environ.get("VIRTUAL_ENV") or sys.prefix` treats both `None` and
the empty string as falsy. -/
def ofPath (sys : SysCtx) (environ : EnvTable) (path : Option Str) : Environment :=
  let p0 := path.getD []
  let v0 := (alookup "VIRTUAL_ENV".toList environ).getD []
  let chosen := if p0 ≠ [] then p0 else if v0 ≠ [] then v0 else sys.prefixDir
  let root := abspath sys.cwd chosen
  let bin := joinPath root (if sys.win then "Scripts".toList else "bin".toList)
  let lib := joinPath root (if sys.win then "Lib".toList else "lib".toList)
  let python0 := joinPath bin (if sys.win then "python.exe".toList else "python".toList)
  let isv := ! is_local sys.win root
  { root, bin, lib,
    python := if isv then python0 else sys.executable,
    name := basename root,
    is_virtual := isv }

end environment_py

namespace env_manager_py

/-- Embedding of `Environment.is_local` from env_manager.py (this older copy
has no bare `/usr(/local)?$` patterns and spells the conda patterns
`Anaconda3`/`Miniconda3` on Windows). -/
def is_local (win : Bool) (path : Str) : Bool :=
  if win then
    reSearchLitDigit "Python".toList path
    || reSearchLitDigit "AppData\\Local\\Programs\\Python\\Python".toList path
    || strContains path "Anaconda3".toList
    || strContains path "Miniconda3".toList
  else
    isSfxOf "/usr/bin".toList path
    || isSfxOf "/usr/local/bin".toList path
    || isSfxOf "/opt/homebrew/bin".toList path
    || strContains path "/Library/Frameworks/Python.framework".toList
    || isSfxOf "/anaconda/bin".toList path
    || isSfxOf "/anaconda3/bin".toList path
    || isSfxOf "/miniconda/bin".toList path
    || isSfxOf "/miniconda3/bin".toList path

/-- Embedding of `Environment.__init__` from env_manager.py (path mode).  Here
the explicit path is used whenever it `is not None`, even if empty. -/
def ofPath (sys : SysCtx) (environ : EnvTable) (path : Option Str) : Environment :=
  let chosen :=
    match path with
    | some p => p
    | none =>
      match alookup "VIRTUAL_ENV".toList environ with
      | some v => v
      | none => sys.prefixDir
  let root := abspath sys.cwd chosen
  let isv := ! is_local sys.win root
  let bin := joinPath root (if sys.win then "Scripts".toList else "bin".toList)
  let lib := joinPath root (if sys.win then "Lib".toList else "lib".toList)
  let python0 := joinPath bin (if sys.win then "python.exe".toList else "python".toList)
  { root, bin, lib,
    python := if isv then python0 else sys.executable,
    name := basename root,
    is_virtual := isv }

end env_manager_py

/-! ## EnvManager process-state machine (src/env_manager/env_manager.py) -/

/-- The mutable process-global state `EnvManager` manipulates: `os.environ`
and `sys.path`. -/
structure ProcState where
  environ : EnvTable
  sysPath : List Str
  deriving DecidableEq

/-- An `EnvManager`: its resolved environment plus the snapshots
`_original_env` / `_original_path`. -/
structure EnvMgr where
  env : Environment
  origEnv : EnvTable
  origPath : List Str
  deriving DecidableEq

/-- Embedding of `EnvManager.__init__`: resolve the environment and snapshot
the process state.  (The synchronous on-disk venv creation for a virtual
environment is a filesystem effect outside this state model.) -/
def mkEnvMgr (sys : SysCtx) (s : ProcState) (path : Option Str) : EnvMgr :=
  { env := env_manager_py.ofPath sys s.environ path,
    origEnv := s.environ,
    origPath := s.sysPath }

/-- Embedding of `EnvManager.is_active`: the `VIRTUAL_ENV` marker is set and
its absolute path equals the environment root's absolute path. -/
def is_active (sys : SysCtx) (environ : EnvTable) (m : EnvMgr) : Bool :=
  match alookup "VIRTUAL_ENV".toList environ with
  | some v => abspath sys.cwd v == abspath sys.cwd m.env.root
  | none => false

/-- Embedding of `EnvManager.activate`.  `fs` is the file-existence oracle
(`os.path.exists`).  The method snapshots the state, returns early when no
activation script exists, and otherwise sets `VIRTUAL_ENV`, prepends the bin
directory to `PATH` when not already a substring of it, and pushes
site-packages and the lib directory onto `sys.path`. -/
def activate (sys : SysCtx) (fs : Str → Bool) (m : EnvMgr) (s : ProcState) :
    EnvMgr × ProcState :=
  if is_active sys s.environ m then (m, s)
  else
    let m1 : EnvMgr := { m with origEnv := s.environ, origPath := s.sysPath }
    let script := joinPath m.env.bin (if sys.win then "activate.bat".toList else "activate".toList)
    if ! fs script then (m1, s)
    else
      let env1 := aset "VIRTUAL_ENV".toList m.env.root s.environ
      let curPath := (alookup "PATH".toList env1).getD []
      let env2 :=
        if strContains curPath m.env.bin then env1
        else aset "PATH".toList (m.env.bin ++ (if sys.win then ';' else ':') :: curPath) env1
      let sp := joinPath m.env.lib "site-packages".toList
      let p1 := if sp ∈ s.sysPath then s.sysPath else sp :: s.sysPath
      let p2 := if m.env.lib ∈ p1 then p1 else m.env.lib :: p1
      (m1, { environ := env2, sysPath := p2 })

/-- Embedding of `EnvManager.deactivate`: when active, restore the snapshots
verbatim; otherwise do nothing. -/
def deactivate (sys : SysCtx) (m : EnvMgr) (s : ProcState) : ProcState :=
  if is_active sys s.environ m then { environ := m.origEnv, sysPath := m.origPath } else s

/-! ## Command preparation and the runners
(src/env_manager/env_manager.py `run`, src/env_manager/runners/runner.py,
src/env_manager/runners/progress_runner.py, src/env_manager/progress_runner.py) -/

/-- Keyword arguments a caller may pass to `run` (the ones the sources
default). -/
structure KwIn where
  text : Option Bool := none
  check : Option Bool := none
  deriving DecidableEq

/-- The execution options after defaulting (`text=True`, `check=True`,
`capture_output` from the parameter) plus the shell settings the preparation
chooses. -/
structure RunKw where
  text : Bool
  check : Bool
  capture_output : Bool
  shell : Bool
  executable : Option Str
  deriving DecidableEq

/-- A prepared command: either a single shell string or an argv list. -/
abbrev ShellCmd := Sum Str (List Str)

/-- Shared preparation algorithm, translated from the inline body of
`EnvManager.run` (env_manager.py lines 258-317) for a non-empty command. -/
def prepareCore (sys : SysCtx) (fs : Str → Bool) (m : EnvMgr)
    (cmdArgs : List Str) (capture_output : Bool) (kw : KwIn) : ShellCmd × RunKw :=
  let text := kw.text.getD true
  let check := kw.check.getD true
  let activate_script :=
    joinPath m.env.bin (if sys.win then "activate.bat".toList else "activate".toList)
  if fs activate_script then
    if sys.win then
      (.inl ('"' :: activate_script ++ "\" && ".toList ++ joinSpace cmdArgs),
       { text, check, capture_output, shell := true, executable := none })
    else
      (.inl ("source \"".toList ++ activate_script ++ "\" && ".toList ++ joinSpace cmdArgs),
       { text, check, capture_output, shell := true, executable := some "/bin/bash".toList })
  else
    let head := cmdArgs.headD []
    let tail := cmdArgs.tail
    if toLowerStr head = "python".toList then
      let python_exe := if fs m.env.python then m.env.python else sys.executable
      (.inr (python_exe :: tail),
       { text, check, capture_output, shell := false, executable := none })
    else
      let cmd_path0 := joinPath m.env.bin (head ++ (if sys.win then ".exe".toList else []))
      let cmd_path := if fs cmd_path0 then cmd_path0 else head
      (.inr (cmd_path :: tail),
       { text, check, capture_output, shell := false, executable := none })

/-- Modelled from the spec: `EnvManager._prepare_command`, the
command-preparation method that runners/runner.py and
runners/progress_runner.py invoke on the bound manager (and that
tests/test_env_manager.py exercises as `prepare_command`), is absent from
src/env_manager/env_manager.py.  Per §4.3/§4.6 of the spec it is the shared
preparation algorithm, i.e. exactly the inline preparation in
`EnvManager.run`; the body below is that algorithm (`prepareCore`) behind the
empty-command check. -/
def prepareCommand (sys : SysCtx) (fs : Str → Bool) (m : EnvMgr)
    (cmdArgs : List Str) (capture_output : Bool) (kw : KwIn) :
    Except PyExc (ShellCmd × RunKw) :=
  if cmdArgs.isEmpty then .error .valueError
  else .ok (prepareCore sys fs m cmdArgs capture_output kw)

/-- A completed process, as `subprocess.run` returns it. -/
structure CompletedProcess where
  returncode : Int
  stdout : Option Str
  stderr : Option Str
  deriving DecidableEq

/-- The OS layer: what executing a prepared command returns.  (The result of a
process does not depend on the `check` flag; `check` only decides whether a
non-zero exit raises, which `subprocessRun` models.) -/
abbrev SubprocOracle := ShellCmd → CompletedProcess

/-- Embedding of `subprocess.run(shell_cmd, env=os.environ, **run_kwargs)`:
with `check` a non-zero exit raises `CalledProcessError`. -/
def subprocessRun (oracle : SubprocOracle) (cmd : ShellCmd) (kw : RunKw) :
    Except PyExc CompletedProcess :=
  let res := oracle cmd
  if kw.check && res.returncode != 0 then .error (.calledProcessError res.returncode)
  else .ok res

/-- Embedding of `Runner.run` (runners/runner.py): require a bound manager,
prepare through the manager's `_prepare_command`, then execute.  A
`CalledProcessError` propagates unchanged; any other exception inside the
`try` (such as the empty-command `ValueError`) is wrapped as `RuntimeError`. -/
def runnerRun (oracle : SubprocOracle) (sys : SysCtx) (fs : Str → Bool)
    (bound : Option EnvMgr) (cmdArgs : List Str) (capture_output : Bool) (kw : KwIn) :
    Except PyExc CompletedProcess :=
  match bound with
  | none => .error .valueError
  | some m =>
    match prepareCommand sys fs m cmdArgs capture_output kw with
    | .error _ => .error .runtimeError
    | .ok cr => subprocessRun oracle cr.1 cr.2

/-- Embedding of `ProgressRunner.run` (runners/progress_runner.py) with its
default `inline_output = None` path: prepare through the manager's
`_prepare_command`, pop `check` from the kwargs, execute without `check`, and
raise `CalledProcessError` afterwards when `check` was requested and the exit
code is non-zero.  (The spinner, timer thread and inline-output display are
UI-only and carry no data dependence.) -/
def progressRunnerRun (oracle : SubprocOracle) (sys : SysCtx) (fs : Str → Bool)
    (bound : Option EnvMgr) (cmdArgs : List Str) (capture_output : Bool) (kw : KwIn) :
    Except PyExc CompletedProcess :=
  match bound with
  | none => .error .valueError
  | some m =>
    match prepareCommand sys fs m cmdArgs capture_output kw with
    | .error _ => .error .runtimeError
    | .ok cr =>
      let check_enabled := cr.2.check
      let res := oracle cr.1
      if check_enabled && res.returncode != 0 then .error (.calledProcessError res.returncode)
      else .ok res

/-- Embedding of `EnvManager.run` itself: the empty-command `ValueError` is
raised before the `try` block, so it propagates unwrapped; then the inline
preparation and execution. -/
def envManagerRun (oracle : SubprocOracle) (sys : SysCtx) (fs : Str → Bool)
    (m : EnvMgr) (cmdArgs : List Str) (capture_output : Bool) (kw : KwIn) :
    Except PyExc CompletedProcess :=
  match prepareCommand sys fs m cmdArgs capture_output kw with
  | .error e => .error e
  | .ok cr => subprocessRun oracle cr.1 cr.2

/-- Embedding of `ProgressRunner.prepare_command` from the progress-bar module
src/env_manager/progress_runner.py (returns the prepared command plus the
`shell` flag and `executable` it stores into the kwargs).  Unlike the
standard preparation it wraps the inline code of a `python -c` command in
double quotes. -/
def pbPrepareCommand (sys : SysCtx) (fs : Str → Bool) (env : Environment)
    (cmd_list : List Str) : ShellCmd × Bool × Option Str :=
  let activate_script :=
    joinPath env.bin (if sys.win then "activate.bat".toList else "activate".toList)
  if fs activate_script then
    let is_python_c :=
      2 ≤ cmd_list.length
      && cmd_list.headD [] = "python".toList
      && cmd_list.tail.headD [] = "-c".toList
    let cmd_part :=
      if is_python_c then
        "python -c \"".toList ++ joinSpace (cmd_list.drop 2) ++ ['"']
      else joinSpace cmd_list
    if sys.win then
      (.inl ('"' :: activate_script ++ "\" && ".toList ++ cmd_part), true, none)
    else
      (.inl ("source \"".toList ++ activate_script ++ "\" && ".toList ++ cmd_part),
       true, some "/bin/bash".toList)
  else
    let head := cmd_list.headD []
    let tail := cmd_list.tail
    if toLowerStr head = "python".toList then
      let python_exe := if fs env.python then env.python else sys.executable
      (.inr (python_exe :: tail), false, none)
    else
      let cmd_path0 := joinPath env.bin (head ++ (if sys.win then ".exe".toList else []))
      let cmd_path := if fs cmd_path0 then cmd_path0 else head
      (.inr (cmd_path :: tail), false, none)

/-! A small POSIX-shell word splitter, used to state what "a single shell
token" means: double quotes group, unquoted spaces split. -/

mutual
/-- Tokenise outside quotes; `cur` is the token being accumulated, if any. -/
def shTok : Str → Option Str → List Str
  | [], cur => (match cur with | none => [] | some t => [t])
  | c :: r, cur =>
    if c = ' ' then (match cur with | none => shTok r none | some t => t :: shTok r none)
    else if c = '"' then shTokQ r (cur.getD [])
    else shTok r (some ((cur.getD []) ++ [c]))
termination_by structural s => s
/-- Tokenise inside double quotes. -/
def shTokQ : Str → Str → List Str
  | [], t => [t]
  | c :: r, t =>
    if c = '"' then shTok r (some t)
    else shTokQ r (t ++ [c])
termination_by structural s => s
end

/-- Shell tokens of a command string. -/
def shellTokens (s : Str) : List Str := shTok s none

/-! ## PackageManager and the two InstallPkgContextManager variants
(src/env_manager/package_manager.py and src/env_manager/env_manager.py)

Command executions are recorded in a trace of raw `pip` command argument
lists; `ok` is the oracle saying whether the underlying runner call
succeeds. -/

/-- Commands attempted through a runner, in order. -/
abbrev Trace := List (List Str)

/-- The `pip install` command `PackageManager.install` builds for a package
and a `pip_options` list (the only option shape the scoped installer uses;
other keyword options would append `--key`/`--key=value` flags). -/
def pmInstallCmd (pkg : Str) (pip_options : List Str) : List Str :=
  "pip".toList :: "install".toList :: pkg :: pip_options

/-- The `pip uninstall` command `PackageManager.uninstall` builds (the `-y`
flag is always forced). -/
def pmUninstallCmd (pkg : Str) : List Str :=
  ["pip".toList, "uninstall".toList, "-y".toList, pkg]

/-- Embedding of `PackageManager.install`: dispatch the command through the
runner (recorded in the trace); a failure is wrapped as `RuntimeError`. -/
def pmInstall (ok : List Str → Bool) (pkg : Str) (pip_options : List Str) (tr : Trace) :
    (Except PyExc Unit) × Trace :=
  let cmd := pmInstallCmd pkg pip_options
  ((if ok cmd then .ok () else .error .runtimeError), tr ++ [cmd])

/-- Embedding of `PackageManager.uninstall`. -/
def pmUninstall (ok : List Str → Bool) (pkg : Str) (tr : Trace) :
    (Except PyExc Unit) × Trace :=
  let cmd := pmUninstallCmd pkg
  ((if ok cmd then .ok () else .error .runtimeError), tr ++ [cmd])

/-- The package_manager.py `InstallPkgContextManager`: packages, options and
the `_installed` flag. -/
structure InstallPkgCM where
  packages : List Str
  pip_options : List Str
  installed : Bool
  deriving DecidableEq

/-- Embedding of `InstallPkgContextManager.__init__` (package_manager.py): it
stores the packages and options and sets `_installed = False`; it dispatches
no command, which the unchanged trace records. -/
def ipcmInit (packages : List Str) (pip_options : List Str) (tr : Trace) :
    InstallPkgCM × Trace :=
  ({ packages, pip_options, installed := false }, tr)

/-- The installation loop of `__enter__`. -/
def ipcmEnterGo (ok : List Str → Bool) (pip_options : List Str) :
    List Str → Trace → (Except PyExc Unit) × Trace
  | [], tr => (.ok (), tr)
  | p :: ps, tr =>
    match pmInstall ok p pip_options tr with
    | (.ok _, tr1) => ipcmEnterGo ok pip_options ps tr1
    | (.error _, tr1) => (.error .runtimeError, tr1)

/-- Embedding of `InstallPkgContextManager.__enter__` (package_manager.py):
install every package, then set `_installed = True`; a failure is wrapped. -/
def ipcmEnter (ok : List Str → Bool) (cm : InstallPkgCM) (tr : Trace) :
    (Except PyExc InstallPkgCM) × Trace :=
  match ipcmEnterGo ok cm.pip_options cm.packages tr with
  | (.ok _, tr1) => (.ok { cm with installed := true }, tr1)
  | (.error e, tr1) => (.error e, tr1)

/-- The uninstallation loop of `__exit__`. -/
def ipcmExitGo (ok : List Str → Bool) : List Str → Trace → (Except PyExc Unit) × Trace
  | [], tr => (.ok (), tr)
  | p :: ps, tr =>
    match pmUninstall ok p tr with
    | (.ok _, tr1) => ipcmExitGo ok ps tr1
    | (.error _, tr1) => (.error .runtimeError, tr1)

/-- Embedding of `InstallPkgContextManager.__exit__` (package_manager.py):
uninstall every package, but only when `_installed` is set. -/
def ipcmExit (ok : List Str → Bool) (cm : InstallPkgCM) (tr : Trace) :
    (Except PyExc Unit) × Trace :=
  if cm.installed then ipcmExitGo ok cm.packages tr else (.ok (), tr)

/-- The `with` protocol around the package_manager.py context manager:
construct, enter (if entering raises, the body and exit never run), run the
body, always run exit, and propagate the body's exception when exit returns
normally (returning `None` does not suppress it). -/
def ipcmWith (ok : List Str → Bool) (packages : List Str) (pip_options : List Str)
    (bodyFails : Bool) (tr : Trace) : (Except PyExc Unit) × Trace :=
  let (cm, tr0) := ipcmInit packages pip_options tr
  match ipcmEnter ok cm tr0 with
  | (.error e, tr1) => (.error e, tr1)
  | (.ok cm1, tr1) =>
    match ipcmExit ok cm1 tr1 with
    | (.error e, tr2) => (.error e, tr2)
    | (.ok _, tr2) => ((if bodyFails then .error .valueError else .ok ()), tr2)

/-- Embedding of `InstallPkgContextManager.__init__` from env_manager.py: it
immediately runs `pip install <package>` through the owning manager; a
`CalledProcessError` is wrapped as `RuntimeError`. -/
def emIpcmInit (ok : List Str → Bool) (package : Str) (tr : Trace) :
    (Except PyExc Unit) × Trace :=
  let cmd := ["pip".toList, "install".toList, package]
  ((if ok cmd then .ok () else .error .runtimeError), tr ++ [cmd])

/-- Embedding of `InstallPkgContextManager.__exit__` from env_manager.py:
run `pip uninstall -y <package>` unconditionally. -/
def emIpcmExit (ok : List Str → Bool) (package : Str) (tr : Trace) :
    (Except PyExc Unit) × Trace :=
  let cmd := ["pip".toList, "uninstall".toList, "-y".toList, package]
  ((if ok cmd then .ok () else .error .runtimeError), tr ++ [cmd])

/-- The `with` protocol around the env_manager.py context manager: the
constructor installs, `__enter__` does nothing, `__exit__` always
uninstalls. -/
def emIpcmWith (ok : List Str → Bool) (package : Str) (bodyFails : Bool) (tr : Trace) :
    (Except PyExc Unit) × Trace :=
  match emIpcmInit ok package tr with
  | (.error e, tr1) => (.error e, tr1)
  | (.ok _, tr1) =>
    match emIpcmExit ok package tr1 with
    | (.error e, tr2) => (.error e, tr2)
    | (.ok _, tr2) => ((if bodyFails then .error .valueError else .ok ()), tr2)

/-! ## dev_tools CLI (src/env_manager/dev_tools.py) -/

/-- The exception categories `main` distinguishes. -/
inductive CliExc where
  | devTools : CliExc
  | keyboard : CliExc
  | calledProcess (rc : Int) : CliExc
  | other : CliExc
  deriving DecidableEq

/-- The global `exit_status` record (only `exit_code` matters here). -/
structure ExitStatus where
  exit_code : Int
  deriving DecidableEq

/-- Embedding of `main`'s exception handlers: for each caught category, the
recorded `exit_status.exit_code` and the `sys.exit` code, exactly as the
source assigns them (`DevToolsError` and `KeyboardInterrupt` record 1 and
exit 2; `CalledProcessError` records the command's return code and exits 1;
anything else records 1 and exits 1). -/
def mainExcept : CliExc → ExitStatus × Int
  | .devTools => ({ exit_code := 1 }, 2)
  | .keyboard => ({ exit_code := 1 }, 2)
  | .calledProcess rc => ({ exit_code := rc }, 1)
  | .other => ({ exit_code := 1 }, 1)

/-- Embedding of `exit_handler`: the registered atexit hook resets the
`GlobalState` store exactly when the recorded exit code equals 2. -/
def exitHandlerResets (recorded : Int) : Bool := recorded == 2

/-- Embedding of the expression `Setup.get_env_manager()` as written in
`DevTools.deploy` and `DevTools._install_if_needed`: the instance method is
looked up on the class and called with zero arguments, so Python raises
`TypeError` (missing the required positional argument `self`). -/
def setupGetEnvManagerClassCall : Except PyExc Unit := .error .typeError

/-- Embedding of `DevTools._install_if_needed`: its first statement is the
class-level `Setup.get_env_manager()` call, so the `TypeError` propagates
before the import probe or any `pip` command; nothing is traced. -/
def installIfNeeded (tr : Trace) : (Except PyExc Bool) × Trace :=
  match setupGetEnvManagerClassCall with
  | .error e => (.error e, tr)
  | .ok _ => (.ok false, tr)

/-- Embedding of `DevTools.release`: resolve the manager through the instance
(`self.setup.get_env_manager()`, outcome `setupRes`), look the release type
up in the `ReleaseType` enum, then call `_install_if_needed("build")`.  The
remainder (git configuration, version bump, build, artifact moves) is the
abstract `rest`, which is unreachable because `_install_if_needed` always
raises. -/
def devToolsRelease (setupRes : Except PyExc EnvMgr) (rtype : Str)
    (rest : Trace → (Except PyExc Unit) × Trace) (tr : Trace) :
    (Except PyExc Unit) × Trace :=
  match setupRes with
  | .error e => (.error e, tr)
  | .ok _ =>
    if rtype = "beta".toList || rtype = "prod".toList then
      match installIfNeeded tr with
      | (.error e, tr1) => (.error e, tr1)
      | (.ok _, tr1) => rest tr1
    else (.error .keyError, tr)

/-- Embedding of `DevTools.deploy`: its first statement is the class-level
`Setup.get_env_manager()` call, before the target is even validated; the
remainder (twine upload, and on the production path the dangling
`self.config` / `self.env_manager` attribute references, which would raise
`AttributeError`) is the abstract `rest`, unreachable. -/
def devToolsDeploy (target : Str) (rest : Trace → (Except PyExc Unit) × Trace)
    (tr : Trace) : (Except PyExc Unit) × Trace :=
  match setupGetEnvManagerClassCall with
  | .error e => (.error e, tr)
  | .ok _ => rest tr

/-! # Theorems

Helper lemmas first, then one theorem per claim (with witnesses and
counterexamples where required). -/

/-! ## Decimal rendering and number parsing -/

theorem encNatGo_irrel : ∀ (n f g : Nat), n < f → n < g → encNatGo f n = encNatGo g n := by
  intro n
  induction n using Nat.strong_induction_on with
  | _ n ih =>
    intro f g hf hg
    cases f with
    | zero => omega
    | succ f2 =>
      cases g with
      | zero => omega
      | succ g2 =>
        simp only [encNatGo]
        by_cases h10 : n < 10
        · simp [h10]
        · have hpos : 0 < n := by omega
          have hlt : n / 10 < n := Nat.div_lt_self hpos (by norm_num)
          simp only [h10, if_false]
          rw [ih (n / 10) hlt f2 g2 (by omega) (by omega)]

theorem encNat_eq (n : Nat) :
    encNat n = if n < 10 then [digitChar n]
               else encNat (n / 10) ++ [digitChar (n % 10)] := by
  unfold encNat
  by_cases h : n < 10
  · simp [encNatGo, h]
  · have hpos : 0 < n := by omega
    have hlt : n / 10 < n := Nat.div_lt_self hpos (by norm_num)
    simp only [encNatGo, h, if_false]
    rw [encNatGo_irrel (n / 10) n (n / 10 + 1) hlt (by omega)]
    rfl

theorem digit_basic : ∀ d : Nat, d < 10 →
    (digitChar d).isDigit = true ∧ (digitChar d).toNat = 48 + d := by decide

theorem isDigit_not_special (c : Char) (h : c.isDigit = true) :
    isWsChar c = false ∧ ¬(c = '-') ∧ ¬(c = '.') ∧ ¬(c = 'e') ∧ ¬(c = 'E') ∧
      ¬(c = '"') ∧ ¬(c = '[') ∧ ¬(c = '{') ∧ ¬(c = ']') ∧ ¬(c = '}') ∧
      ¬(c = ',') ∧ ¬(c = '%') ∧ ¬(c = 'n') ∧ ¬(c = 't') ∧ ¬(c = 'f') ∧
      ¬(c = ':') ∧ ¬(c = '\n') := by
  have hne : ∀ x : Char, x.isDigit = false → ¬ (c = x) :=
    fun x hx he => absurd (he ▸ h) (by simp [hx])
  refine ⟨?_, hne '-' (by decide), hne '.' (by decide), hne 'e' (by decide),
    hne 'E' (by decide), hne '"' (by decide), hne '[' (by decide), hne '{' (by decide),
    hne ']' (by decide), hne '}' (by decide), hne ',' (by decide), hne '%' (by decide),
    hne 'n' (by decide), hne 't' (by decide), hne 'f' (by decide), hne ':' (by decide),
    hne '\n' (by decide)⟩
  cases hw : isWsChar c with
  | false => rfl
  | true =>
    exfalso
    simp only [isWsChar, Bool.or_eq_true, decide_eq_true_eq] at hw
    rcases hw with ((h1 | h1) | h1) | h1 <;> (subst h1; exact absurd h (by decide))

theorem encNat_ne_nil (n : Nat) : encNat n ≠ [] := by
  rw [encNat_eq]
  by_cases h : n < 10 <;> simp [h]

theorem encNat_digits : ∀ n : Nat, ∀ c ∈ encNat n, c.isDigit = true := by
  intro n
  induction n using Nat.strong_induction_on with
  | _ n ih =>
    rw [encNat_eq]
    by_cases h : n < 10
    · simp only [h, if_true, List.mem_singleton]
      intro c hc
      subst hc
      exact (digit_basic n h).1
    · have hpos : 0 < n := by omega
      have hlt : n / 10 < n := Nat.div_lt_self hpos (by norm_num)
      simp only [h, if_false]
      intro c hc
      rcases List.mem_append.mp hc with h1 | h1
      · exact ih (n / 10) hlt c h1
      · simp only [List.mem_singleton] at h1
        subst h1
        exact (digit_basic (n % 10) (Nat.mod_lt n (by norm_num))).1

theorem digitsToNat_append_digit (l : Str) (c : Char) :
    digitsToNat (l ++ [c]) = 10 * digitsToNat l + (c.toNat - 48) := by
  unfold digitsToNat
  rw [List.foldl_append]
  rfl

theorem digitsToNat_encNat : ∀ n : Nat, digitsToNat (encNat n) = n := by
  intro n
  induction n using Nat.strong_induction_on with
  | _ n ih =>
    rw [encNat_eq]
    by_cases h : n < 10
    · simp only [h, if_true]
      unfold digitsToNat
      simp [List.foldl, (digit_basic n h).2]
    · have hpos : 0 < n := by omega
      have hlt : n / 10 < n := Nat.div_lt_self hpos (by norm_num)
      simp only [h, if_false]
      rw [digitsToNat_append_digit, ih (n / 10) hlt,
        (digit_basic (n % 10) (Nat.mod_lt n (by norm_num))).2]
      omega

theorem takeDigits_of_digits : ∀ (ds rest : Str),
    (∀ c ∈ ds, c.isDigit = true) → (rest.headD ' ').isDigit = false →
    takeDigits (ds ++ rest) = (ds, rest) := by
  intro ds
  induction ds with
  | nil =>
    intro rest _ hr
    cases rest with
    | nil => rfl
    | cons c t =>
      simp only [List.headD_cons] at hr
      simp [takeDigits, hr]
  | cons c cs ih =>
    intro rest h hr
    have hc : c.isDigit = true := h c (by simp)
    have hcs : ∀ x ∈ cs, x.isDigit = true := fun x hx => h x (by simp [hx])
    simp [takeDigits, hc, ih rest hcs hr]

theorem headD_append (l r : Str) (d : Char) (h : l ≠ []) :
    (l ++ r).headD d = l.headD d := by
  cases l with
  | nil => exact absurd rfl h
  | cons c t => rfl

theorem headD_mem (l : Str) (d : Char) (h : l ≠ []) : l.headD d ∈ l := by
  cases l with
  | nil => exact absurd rfl h
  | cons c t => simp

theorem numBoundary_head (rest : Str) (h : numBoundary rest = true) :
    (rest.headD ' ').isDigit = false ∧ ¬(rest.headD ' ' = '.') ∧
      ¬(rest.headD ' ' = 'e') ∧ ¬(rest.headD ' ' = 'E') := by
  cases rest with
  | nil => exact ⟨by decide, by decide, by decide, by decide⟩
  | cons c t =>
    simp [numBoundary] at h
    simp only [List.headD_cons]
    exact ⟨by tauto, by tauto, by tauto, by tauto⟩

theorem parseIntTok_nonneg (m : Nat) (rest : Str) (hb : numBoundary rest = true) :
    parseIntTok (encNat m ++ rest) = some ((m : Int), rest) := by
  obtain ⟨hd0, hdot, he, hE⟩ := numBoundary_head rest hb
  have hcdig : ((encNat m).headD ' ').isDigit = true :=
    encNat_digits m _ (headD_mem _ _ (encNat_ne_nil _))
  have hneg : ((encNat m ++ rest).headD ' ' = '-') = False := by
    rw [headD_append _ _ _ (encNat_ne_nil _)]
    exact eq_false (isDigit_not_special _ hcdig).2.1
  simp only [parseIntTok, hneg, decide_False, Bool.false_eq_true, if_false]
  rw [takeDigits_of_digits (encNat m) rest (encNat_digits _) hd0]
  simp only [List.headD_eq_head?] at hdot he hE
  simp [encNat_ne_nil, digitsToNat_encNat, hdot, he, hE]

theorem parseIntTok_neg_lit (m : Nat) (rest : Str) (hb : numBoundary rest = true) :
    parseIntTok ('-' :: (encNat m ++ rest)) = some (-(m : Int), rest) := by
  obtain ⟨hd0, hdot, he, hE⟩ := numBoundary_head rest hb
  simp only [parseIntTok, List.headD_cons, decide_True, List.tail_cons,
    eq_self_iff_true, if_true]
  rw [takeDigits_of_digits (encNat m) rest (encNat_digits _) hd0]
  simp only [List.headD_eq_head?] at hdot he hE
  simp [encNat_ne_nil, digitsToNat_encNat, hdot, he, hE]

theorem parseIntTok_encInt (n : Int) (rest : Str) (hb : numBoundary rest = true) :
    parseIntTok (encInt n ++ rest) = some (n, rest) := by
  unfold encInt
  by_cases hn : n < 0
  · simp only [hn, if_true, List.cons_append]
    rw [parseIntTok_neg_lit _ _ hb]
    congr 1
    rw [Prod.mk.injEq]
    refine ⟨?_, rfl⟩
    rw [Int.toNat_of_nonneg (by omega)]
    omega
  · simp only [hn, if_false]
    rw [parseIntTok_nonneg _ _ hb]
    congr 1
    rw [Prod.mk.injEq]
    refine ⟨?_, rfl⟩
    rw [Int.toNat_of_nonneg (by omega)]

/-! ## JSON string bodies, heads and tails of encoded values -/

theorem safeChar_spec (c : Char) (h : safeChar c = true) :
    32 ≤ c.toNat ∧ c.toNat ≤ 126 ∧ ¬(c = '"') ∧ ¬(c = '\\') ∧ ¬(c = '%') := by
  simp only [safeChar, Bool.and_eq_true, decide_eq_true_eq] at h
  tauto

theorem encChar_safe (c : Char) (h : safeChar c = true) : encChar c = [c] := by
  obtain ⟨h1, h2, h3, h4, _⟩ := safeChar_spec c h
  have hn : ¬(c = '\n') := fun he => by subst he; exact absurd h1 (by decide)
  have ht : ¬(c = '\t') := fun he => by subst he; exact absurd h1 (by decide)
  have hr : ¬(c = '\r') := fun he => by subst he; exact absurd h1 (by decide)
  have h8 : ¬(c.toNat = 8) := by omega
  have h12 : ¬(c.toNat = 12) := by omega
  have hrange : (c.toNat < 32 || 126 < c.toNat) = false := by
    simp only [Bool.or_eq_false_iff, decide_eq_false_iff_not]
    omega
  simp [encChar, h3, h4, hn, ht, hr, h8, h12, hrange]

theorem encStrBody_safe : ∀ s : Str, (∀ c ∈ s, safeChar c = true) → encStrBody s = s := by
  intro s
  induction s with
  | nil => intro _; rfl
  | cons c t ih =>
    intro h
    have hc := encChar_safe c (h c (by simp))
    simp [encStrBody, hc, ih (fun x hx => h x (by simp [hx]))]

theorem parseStrBody_safe : ∀ (s rest : Str), (∀ c ∈ s, safeChar c = true) →
    parseStrBody (s ++ '"' :: rest) = some (s, rest) := by
  intro s
  induction s with
  | nil => intro rest _; rfl
  | cons c cs ih =>
    intro rest h
    obtain ⟨_, _, h3, h4, _⟩ := safeChar_spec c (h c (by simp))
    show parseStrBody (c :: (cs ++ '"' :: rest)) = some (c :: cs, rest)
    simp only [parseStrBody]
    rw [if_neg h3, if_neg h4, ih rest (fun x hx => h x (by simp [hx]))]
    rfl

theorem skipWs_cons_nws (c : Char) (t : Str) (h : isWsChar c = false) :
    skipWs (c :: t) = c :: t := by
  simp [skipWs, h]

theorem encVal_head_spec (v : JValue) :
    ∃ c t, encVal v = c :: t ∧ isWsChar c = false ∧ ¬(c = ']') ∧ ¬(c = '}') := by
  cases v with
  | null => exact ⟨'n', _, rfl, by decide⟩
  | bool b =>
    cases b with
    | true => refine ⟨'t', _, rfl, ?_⟩; decide
    | false => refine ⟨'f', _, rfl, ?_⟩; decide
  | str s => exact ⟨'"', encStrBody s ++ ['"'], rfl, by decide⟩
  | arr xs => refine ⟨'[', encList xs ++ [']'], rfl, ?_⟩; decide
  | obj ms => refine ⟨'{', encObj ms ++ ['}'], rfl, ?_⟩; decide
  | num n =>
    show ∃ c t, encInt n = c :: t ∧ _
    unfold encInt
    by_cases hn : n < 0
    · exact ⟨'-', encNat (-n).toNat, by simp [hn], by decide⟩
    · obtain ⟨c, t, hct⟩ : ∃ c t, encNat n.toNat = c :: t := by
        cases hcc : encNat n.toNat with
        | nil => exact absurd hcc (encNat_ne_nil _)
        | cons c t => exact ⟨c, t, rfl⟩
      have hdig : c.isDigit = true := encNat_digits n.toNat c (by simp [hct])
      obtain ⟨hws, _, _, _, _, _, _, _, hr1, hr2, _⟩ := isDigit_not_special c hdig
      exact ⟨c, t, by simp [hn, hct], hws, hr1, hr2⟩

theorem encVal_ne_nil (v : JValue) : encVal v ≠ [] := by
  obtain ⟨c, t, hct, _⟩ := encVal_head_spec v
  simp [hct]

theorem skipWs_encVal_append (v : JValue) (rest : Str) :
    skipWs (encVal v ++ rest) = encVal v ++ rest := by
  obtain ⟨c, t, hct, hws, _⟩ := encVal_head_spec v
  rw [hct, List.cons_append, skipWs_cons_nws c _ hws]

theorem encNat_reverse_head : ∀ m : Nat, ((encNat m).reverse.headD 'x').isDigit = true := by
  intro m
  rw [encNat_eq]
  by_cases h : m < 10
  · simp only [h, if_true, List.reverse_singleton, List.headD_cons]
    exact (digit_basic m h).1
  · simp only [h, if_false, List.reverse_append, List.reverse_singleton,
      List.singleton_append, List.headD_cons]
    exact (digit_basic (m % 10) (Nat.mod_lt m (by omega))).1

theorem encVal_last_not_ws (v : JValue) :
    isWsChar ((encVal v).reverse.headD 'x') = false := by
  cases v with
  | null => decide
  | bool b => cases b <;> decide
  | str s =>
    show isWsChar ((('"' :: encStrBody s) ++ ['"']).reverse.headD 'x') = false
    simp [List.reverse_append, isWsChar]
  | arr xs =>
    show isWsChar ((('[' :: encList xs) ++ [']']).reverse.headD 'x') = false
    simp [List.reverse_append, isWsChar]
  | obj ms =>
    show isWsChar ((('{' :: encObj ms) ++ ['}']).reverse.headD 'x') = false
    simp [List.reverse_append, isWsChar]
  | num n =>
    show isWsChar ((encInt n).reverse.headD 'x') = false
    unfold encInt
    by_cases hn : n < 0
    · simp only [hn, if_true, List.reverse_cons]
      obtain ⟨c, t, hct⟩ : ∃ c t, encNat (-n).toNat = c :: t := by
        cases hcc : encNat (-n).toNat with
        | nil => exact absurd hcc (encNat_ne_nil _)
        | cons c t => exact ⟨c, t, rfl⟩
      rw [headD_append _ _ _ (by simp [hct])]
      exact (isDigit_not_special _ (encNat_reverse_head (-n).toNat)).1
    · simp only [hn, if_false]
      exact (isDigit_not_special _ (encNat_reverse_head n.toNat)).1

theorem encVal_length_pos (v : JValue) : 0 < (encVal v).length := by
  obtain ⟨c, t, hct, _⟩ := encVal_head_spec v
  simp [hct]

theorem encList_cons_head (x : JValue) (tl : JList) :
    ∃ c t, encList (.cons x tl) = c :: t ∧ isWsChar c = false ∧ ¬(c = ']') ∧ ¬(c = '}') := by
  obtain ⟨c, t2, hct, hws, h1, h2⟩ := encVal_head_spec x
  cases tl with
  | nil =>
    refine ⟨c, (t2 ++ []) ++ [], ?_, hws, h1, h2⟩
    show (encVal x ++ []) ++ [] = _
    rw [hct]
    rfl
  | cons y tl2 =>
    refine ⟨c, (t2 ++ [',', ' ']) ++ encList (.cons y tl2), ?_, hws, h1, h2⟩
    show (encVal x ++ [',', ' ']) ++ encList (.cons y tl2) = _
    rw [hct]
    rfl

theorem encObj_cons_head (k : Str) (v : JValue) (tl : JObj) :
    ∃ t, encObj (.cons k v tl) = '"' :: t := ⟨_, rfl⟩

/-- The parser inverts the encoder: with enough fuel, a safe encoded value
followed by a number boundary parses back to itself, and likewise for the
non-empty element/member lists followed by their closing bracket. -/
theorem parse_enc_roundtrip : ∀ fuel : Nat,
    (∀ (v : JValue) (rest : Str), jsafe v = true → (encVal v).length < fuel →
      numBoundary rest = true →
      parseVal fuel (encVal v ++ rest) = some (v, rest)) ∧
    (∀ (xs : JList) (rest : Str), jsafeL xs = true → xs ≠ .nil →
      (encList xs).length + 1 < fuel →
      parseItems fuel (encList xs ++ ']' :: rest) = some (xs, rest)) ∧
    (∀ (ms : JObj) (rest : Str), jsafeO ms = true → ms ≠ .nil →
      (encObj ms).length + 1 < fuel →
      parseFields fuel (encObj ms ++ '}' :: rest) = some (ms, rest)) := by
  intro fuel
  induction fuel with
  | zero => exact ⟨fun v _ _ h => absurd h (by omega), fun xs _ _ _ h => absurd h (by omega),
      fun ms _ _ _ h => absurd h (by omega)⟩
  | succ fuel ih =>
    obtain ⟨ihV, ihL, ihO⟩ := ih
    have hskip := skipWs_encVal_append
    refine ⟨?_, ?_, ?_⟩
    · intro v rest hsafe hlen hrest
      cases v with
      | null => simp [parseVal, skipWs, isWsChar, isPfxOf, List.drop]
      | bool b => cases b <;> simp [parseVal, skipWs, isWsChar, isPfxOf, List.drop]
      | str s =>
        have hall : ∀ c ∈ s, safeChar c = true := by
          simpa [jsafe, List.all_eq_true] using hsafe
        show parseVal (fuel + 1) (('"' :: encStrBody s ++ ['"']) ++ rest) = _
        rw [encStrBody_safe s hall]
        simp only [List.cons_append, List.append_assoc, List.singleton_append]
        simp only [parseVal, skipWs, isWsChar]
        simp [isPfxOf, parseStrBody_safe s rest hall]
      | num n =>
        obtain ⟨c, t2, hct, hcn, hctr, hcf, hcq, hcbr, hcbc, hws⟩ :
            ∃ c t2, encInt n = c :: t2 ∧ ¬('n' = c) ∧ ¬('t' = c) ∧ ¬('f' = c) ∧
              ¬(c = '"') ∧ ¬(c = '[') ∧ ¬(c = '{') ∧ isWsChar c = false := by
          unfold encInt
          by_cases hn : n < 0
          · exact ⟨'-', encNat (-n).toNat, by simp [hn], by decide, by decide, by decide,
              by decide, by decide, by decide, by decide⟩
          · obtain ⟨c, t2, hct⟩ : ∃ c t2, encNat n.toNat = c :: t2 := by
              cases hcc : encNat n.toNat with
              | nil => exact absurd hcc (encNat_ne_nil _)
              | cons c t2 => exact ⟨c, t2, rfl⟩
            have hdig : c.isDigit = true := encNat_digits n.toNat c (by simp [hct])
            obtain ⟨hws, _, _, _, _, hq, hbr, hbc, _, _, _, _, hn2, ht2, hf2, _, _⟩ :=
              isDigit_not_special c hdig
            exact ⟨c, t2, by simp [hn, hct], fun h => hn2 h.symm, fun h => ht2 h.symm,
              fun h => hf2 h.symm, hq, hbr, hbc, hws⟩
        show parseVal (fuel + 1) (encInt n ++ rest) = some (.num n, rest)
        have h1 : isPfxOf "null".toList (encInt n ++ rest) = false := by
          rw [hct]; simp [isPfxOf, hcn]
        have h2 : isPfxOf "true".toList (encInt n ++ rest) = false := by
          rw [hct]; simp [isPfxOf, hctr]
        have h3 : isPfxOf "false".toList (encInt n ++ rest) = false := by
          rw [hct]; simp [isPfxOf, hcf]
        have h4 : ¬((encInt n ++ rest).headD ' ' = '"') := by
          rw [hct]; simpa using hcq
        have h5 : ¬((encInt n ++ rest).headD ' ' = '[') := by
          rw [hct]; simpa using hcbr
        have h6 : ¬((encInt n ++ rest).headD ' ' = '{') := by
          rw [hct]; simpa using hcbc
        have h0 : skipWs (encInt n ++ rest) = encInt n ++ rest := by
          rw [hct]; exact skipWs_cons_nws c _ hws
        simp only [parseVal, h0, h1, h2, h3, h4, h5, h6, Bool.false_eq_true, if_false]
        rw [parseIntTok_encInt n rest hrest]
        rfl
      | arr xs =>
        cases xs with
        | nil => simp [parseVal, skipWs, isWsChar, isPfxOf, encList]
        | cons x tl =>
          have hsl : jsafeL (JList.cons x tl) = true := by simpa [jsafe] using hsafe
          obtain ⟨c, t2, hct, hws, hbr, _⟩ := encList_cons_head x tl
          have hEq : (encVal (JValue.arr (JList.cons x tl))).length
              = (encList (JList.cons x tl)).length + 2 := by
            show (('[' :: encList (JList.cons x tl)) ++ [']']).length = _
            simp only [List.length_append, List.length_cons, List.length_nil]
          show parseVal (fuel + 1)
              (('[' :: encList (JList.cons x tl) ++ [']']) ++ rest) = _
          have hr2 : skipWs (encList (JList.cons x tl) ++ ']' :: rest)
              = encList (JList.cons x tl) ++ ']' :: rest := by
            rw [hct]; exact skipWs_cons_nws c _ hws
          have hhd : ¬((encList (JList.cons x tl) ++ ']' :: rest).headD ' ' = ']') := by
            rw [hct]; simpa using hbr
          simp only [List.cons_append, List.append_assoc, List.singleton_append,
            List.nil_append]
          have h0 : skipWs ('[' :: (encList (JList.cons x tl) ++ ']' :: rest))
              = '[' :: (encList (JList.cons x tl) ++ ']' :: rest) :=
            skipWs_cons_nws '[' _ (by decide)
          have h1 : isPfxOf "null".toList
              ('[' :: (encList (JList.cons x tl) ++ ']' :: rest)) = false := by
            simp [isPfxOf]
          have h2 : isPfxOf "true".toList
              ('[' :: (encList (JList.cons x tl) ++ ']' :: rest)) = false := by
            simp [isPfxOf]
          have h3 : isPfxOf "false".toList
              ('[' :: (encList (JList.cons x tl) ++ ']' :: rest)) = false := by
            simp [isPfxOf]
          have h4 : ¬(('[' :: (encList (JList.cons x tl) ++ ']' :: rest)).headD ' ' = '"') := by
            simp
          simp only [parseVal, h0, h1, h2, h3, h4, Bool.false_eq_true, if_false,
            List.headD_cons, List.tail_cons, if_true]
          rw [hr2]
          rw [if_neg hhd]
          rw [ihL (JList.cons x tl) rest hsl (by simp) (by omega)]
          rfl
      | obj ms =>
        cases ms with
        | nil => simp [parseVal, skipWs, isWsChar, isPfxOf, encObj]
        | cons k v tl =>
          have hso : jsafeO (JObj.cons k v tl) = true := by simpa [jsafe] using hsafe
          have hEq : (encVal (JValue.obj (JObj.cons k v tl))).length
              = (encObj (JObj.cons k v tl)).length + 2 := by
            show (('{' :: encObj (JObj.cons k v tl)) ++ ['}']).length = _
            simp only [List.length_append, List.length_cons, List.length_nil]
          show parseVal (fuel + 1)
              (('{' :: encObj (JObj.cons k v tl) ++ ['}']) ++ rest) = _
          have hr2 : skipWs (encObj (JObj.cons k v tl) ++ '}' :: rest)
              = encObj (JObj.cons k v tl) ++ '}' :: rest := by
            obtain ⟨t3, ht3⟩ := encObj_cons_head k v tl
            rw [ht3]
            exact skipWs_cons_nws '"' _ (by decide)
          have hhd : ¬((encObj (JObj.cons k v tl) ++ '}' :: rest).headD ' ' = '}') := by
            obtain ⟨t3, ht3⟩ := encObj_cons_head k v tl
            rw [ht3]
            simp
          simp only [List.cons_append, List.append_assoc, List.singleton_append,
            List.nil_append]
          have h0 : skipWs ('{' :: (encObj (JObj.cons k v tl) ++ '}' :: rest))
              = '{' :: (encObj (JObj.cons k v tl) ++ '}' :: rest) :=
            skipWs_cons_nws '{' _ (by decide)
          have h1 : isPfxOf "null".toList
              ('{' :: (encObj (JObj.cons k v tl) ++ '}' :: rest)) = false := by
            simp [isPfxOf]
          have h2 : isPfxOf "true".toList
              ('{' :: (encObj (JObj.cons k v tl) ++ '}' :: rest)) = false := by
            simp [isPfxOf]
          have h3 : isPfxOf "false".toList
              ('{' :: (encObj (JObj.cons k v tl) ++ '}' :: rest)) = false := by
            simp [isPfxOf]
          have h4 : ¬(('{' :: (encObj (JObj.cons k v tl) ++ '}' :: rest)).headD ' ' = '"') := by
            simp
          have h5 : ¬(('{' :: (encObj (JObj.cons k v tl) ++ '}' :: rest)).headD ' ' = '[') := by
            simp
          simp only [parseVal, h0, h1, h2, h3, h4, h5, Bool.false_eq_true, if_false,
            List.headD_cons, List.tail_cons, if_true]
          rw [hr2]
          rw [if_neg hhd]
          rw [ihO (JObj.cons k v tl) rest hso (by simp) (by omega)]
          rfl
    · intro xs rest hsafe hne hlen
      cases xs with
      | nil => exact absurd rfl hne
      | cons x tl =>
        have hsx : jsafe x = true ∧ jsafeL tl = true := by
          simpa [jsafeL, Bool.and_eq_true] using hsafe
        cases tl with
        | nil =>
          have hE : encList (JList.cons x JList.nil) = (encVal x ++ []) ++ [] := rfl
          have hL := hlen
          rw [hE] at hL
          simp only [List.length_append, List.length_nil] at hL
          have hlx : (encVal x).length < fuel := by omega
          rw [hE]
          simp only [List.append_nil]
          simp only [parseItems]
          rw [ihV x (']' :: rest) hsx.1 hlx (by rfl)]
          simp only [Option.bind_eq_bind, Option.some_bind]
          rw [skipWs_cons_nws ']' rest (by decide)]
          simp only [List.headD_cons, List.tail_cons]
          rw [if_neg (by decide : ¬((']' : Char) = ','))]
          rw [if_pos trivial]
          rfl
        | cons y tl2 =>
          have hE : encList (JList.cons x (JList.cons y tl2))
              = (encVal x ++ [',', ' ']) ++ encList (JList.cons y tl2) := rfl
          have hL := hlen
          rw [hE] at hL
          simp only [List.length_append, List.length_cons, List.length_nil] at hL
          have hlx : (encVal x).length < fuel := by omega
          have hlt : (encList (JList.cons y tl2)).length + 1 < fuel := by omega
          rw [hE]
          simp only [List.append_assoc, List.cons_append, List.nil_append]
          simp only [parseItems]
          rw [ihV x (',' :: ' ' :: (encList (JList.cons y tl2) ++ ']' :: rest)) hsx.1 hlx
            (by rfl)]
          simp only [Option.bind_eq_bind, Option.some_bind]
          rw [skipWs_cons_nws ',' _ (by decide)]
          simp only [List.headD_cons, List.tail_cons]
          rw [if_pos trivial]
          have hskip2 : skipWs (' ' :: (encList (JList.cons y tl2) ++ ']' :: rest))
              = encList (JList.cons y tl2) ++ ']' :: rest := by
            obtain ⟨c, t2, hct, hws, _, _⟩ := encList_cons_head y tl2
            rw [show skipWs (' ' :: (encList (JList.cons y tl2) ++ ']' :: rest))
                = skipWs (encList (JList.cons y tl2) ++ ']' :: rest) from rfl, hct]
            exact skipWs_cons_nws c _ hws
          rw [hskip2]
          rw [ihL (JList.cons y tl2) rest hsx.2 (by simp) hlt]
          rfl
    · intro ms rest hsafe hne hlen
      cases ms with
      | nil => exact absurd rfl hne
      | cons k v tl =>
        have hsk : (∀ c ∈ k, safeChar c = true) ∧ jsafe v = true ∧ jsafeO tl = true := by
          have h := hsafe
          simp only [jsafeO, Bool.and_eq_true, List.all_eq_true] at h
          tauto
        cases tl with
        | nil =>
          have hE : encObj (JObj.cons k v JObj.nil)
              = ((('"' :: encStrBody k) ++ ('"' :: ':' :: ' ' :: encVal v)) ++ []) ++ [] := rfl
          have hL := hlen
          rw [hE] at hL
          simp only [List.length_append, List.length_cons, List.length_nil] at hL
          have hlv : (encVal v).length < fuel := by omega
          rw [hE, encStrBody_safe k hsk.1]
          simp only [List.append_nil, List.cons_append, List.append_assoc, List.nil_append]
          simp only [parseFields]
          rw [skipWs_cons_nws '"' _ (by decide)]
          simp only [List.headD_cons, List.tail_cons]
          rw [if_pos trivial]
          rw [parseStrBody_safe k _ hsk.1]
          simp only [Option.bind_eq_bind, Option.some_bind]
          rw [skipWs_cons_nws ':' _ (by decide)]
          simp only [List.headD_cons, List.tail_cons]
          rw [if_pos trivial]
          rw [show skipWs (' ' :: (encVal v ++ '}' :: rest))
              = skipWs (encVal v ++ '}' :: rest) from rfl, skipWs_encVal_append]
          rw [ihV v ('}' :: rest) hsk.2.1 hlv (by rfl)]
          simp only [Option.bind_eq_bind, Option.some_bind]
          rw [skipWs_cons_nws '}' rest (by decide)]
          simp only [List.headD_cons, List.tail_cons]
          rw [if_neg (by decide : ¬(('}' : Char) = ','))]
          rw [if_pos trivial]
          rfl
        | cons k2 v2 tl2 =>
          have hE : encObj (JObj.cons k v (JObj.cons k2 v2 tl2))
              = ((('"' :: encStrBody k) ++ ('"' :: ':' :: ' ' :: encVal v)) ++ [',', ' '])
                ++ encObj (JObj.cons k2 v2 tl2) := rfl
          have hL := hlen
          rw [hE] at hL
          simp only [List.length_append, List.length_cons, List.length_nil] at hL
          have hlv : (encVal v).length < fuel := by omega
          have hlt : (encObj (JObj.cons k2 v2 tl2)).length + 1 < fuel := by omega
          rw [hE, encStrBody_safe k hsk.1]
          simp only [List.cons_append, List.append_assoc, List.nil_append]
          simp only [parseFields]
          rw [skipWs_cons_nws '"' _ (by decide)]
          simp only [List.headD_cons, List.tail_cons]
          rw [if_pos trivial]
          rw [parseStrBody_safe k _ hsk.1]
          simp only [Option.bind_eq_bind, Option.some_bind]
          rw [skipWs_cons_nws ':' _ (by decide)]
          simp only [List.headD_cons, List.tail_cons]
          rw [if_pos trivial]
          rw [show skipWs (' ' :: (encVal v
              ++ ',' :: ' ' :: (encObj (JObj.cons k2 v2 tl2) ++ '}' :: rest)))
              = skipWs (encVal v
                ++ ',' :: ' ' :: (encObj (JObj.cons k2 v2 tl2) ++ '}' :: rest)) from rfl,
            skipWs_encVal_append]
          rw [ihV v (',' :: ' ' :: (encObj (JObj.cons k2 v2 tl2) ++ '}' :: rest)) hsk.2.1 hlv
            (by rfl)]
          simp only [Option.bind_eq_bind, Option.some_bind]
          rw [skipWs_cons_nws ',' _ (by decide)]
          simp only [List.headD_cons, List.tail_cons]
          rw [if_pos trivial]
          have hskip2 : skipWs (' ' :: (encObj (JObj.cons k2 v2 tl2) ++ '}' :: rest))
              = encObj (JObj.cons k2 v2 tl2) ++ '}' :: rest := by
            obtain ⟨t3, ht3⟩ := encObj_cons_head k2 v2 tl2
            rw [show skipWs (' ' :: (encObj (JObj.cons k2 v2 tl2) ++ '}' :: rest))
                = skipWs (encObj (JObj.cons k2 v2 tl2) ++ '}' :: rest) from rfl, ht3]
            exact skipWs_cons_nws '"' _ (by decide)
          rw [hskip2]
          rw [ihO (JObj.cons k2 v2 tl2) rest hsk.2.2 (by simp) hlt]
          rfl

/-- `json.loads` inverts `json.dumps` on safe values. -/
theorem jsonDecode_encVal (v : JValue) (h : jsafe v = true) :
    jsonDecode (encVal v) = some v := by
  have hrt := (parse_enc_roundtrip ((encVal v).length + 1)).1 v [] h (by omega) rfl
  rw [List.append_nil] at hrt
  simp [jsonDecode, hrt, skipWs]

theorem safeChar_no_nl (c : Char) (h : safeChar c = true) : ¬(c = '\n') := by
  obtain ⟨h1, _⟩ := safeChar_spec c h
  intro he
  subst he
  exact absurd h1 (by decide)

theorem digit_no_pct_nl (c : Char) (h : c.isDigit = true) : ¬(c = '%') ∧ ¬(c = '\n') := by
  obtain ⟨_, _, _, _, _, _, _, _, _, _, _, hp, _, _, _, _, hn⟩ := isDigit_not_special c h
  exact ⟨hp, hn⟩

theorem encInt_val_chars (n : Int) : ∀ c ∈ encInt n, ¬(c = '%') ∧ ¬(c = '\n') := by
  intro c hc
  unfold encInt at hc
  by_cases hn : n < 0
  · simp only [hn, if_true, List.mem_cons] at hc
    rcases hc with hc | hc
    · subst hc; exact ⟨by decide, by decide⟩
    · exact digit_no_pct_nl c (encNat_digits _ c hc)
  · simp only [hn, if_false] at hc
    exact digit_no_pct_nl c (encNat_digits _ c hc)

/-- No character of a safely-encoded JSON value is a percent sign or a line
break (so configparser interpolation and the line-based file layout are both
safe for it). -/
theorem encVal_val_chars : ∀ n : Nat,
    (∀ v : JValue, jsize v ≤ n → jsafe v = true →
      ∀ c ∈ encVal v, ¬(c = '%') ∧ ¬(c = '\n')) ∧
    (∀ xs : JList, jsizeL xs ≤ n → jsafeL xs = true →
      ∀ c ∈ encList xs, ¬(c = '%') ∧ ¬(c = '\n')) ∧
    (∀ ms : JObj, jsizeO ms ≤ n → jsafeO ms = true →
      ∀ c ∈ encObj ms, ¬(c = '%') ∧ ¬(c = '\n')) := by
  intro n
  induction n with
  | zero =>
    refine ⟨?_, ?_, ?_⟩
    · intro v hv
      cases v <;> simp [jsize] at hv <;> omega
    · intro xs hx _ c hc
      cases xs with
      | nil => simp [encList] at hc
      | cons y tl => simp [jsizeL] at hx <;> omega
    · intro ms hm _ c hc
      cases ms with
      | nil => simp [encObj] at hc
      | cons k v tl => simp [jsizeO] at hm <;> omega
  | succ n ih =>
    obtain ⟨ihV, ihL, ihO⟩ := ih
    refine ⟨?_, ?_, ?_⟩
    · intro v hv hs c hc
      cases v with
      | null => exact (by decide : ∀ x ∈ encVal JValue.null, ¬(x = '%') ∧ ¬(x = '\n')) c hc
      | bool b =>
        cases b
        · exact (by decide : ∀ x ∈ encVal (JValue.bool false),
            ¬(x = '%') ∧ ¬(x = '\n')) c hc
        · exact (by decide : ∀ x ∈ encVal (JValue.bool true),
            ¬(x = '%') ∧ ¬(x = '\n')) c hc
      | num m => exact encInt_val_chars m c hc
      | str s =>
        have hall : ∀ x ∈ s, safeChar x = true := by
          simpa [jsafe, List.all_eq_true] using hs
        have he : encVal (.str s) = ('"' :: s) ++ ['"'] := by
          show ('"' :: encStrBody s) ++ ['"'] = _
          rw [encStrBody_safe s hall]
        rw [he] at hc
        simp only [List.cons_append, List.mem_cons, List.mem_append,
          List.mem_singleton, List.not_mem_nil, or_false] at hc
        rcases hc with rfl | hc | rfl
        · exact ⟨by decide, by decide⟩
        · exact ⟨(safeChar_spec c (hall c hc)).2.2.2.2, safeChar_no_nl c (hall c hc)⟩
        · exact ⟨by decide, by decide⟩
      | arr xs =>
        have hx : jsizeL xs ≤ n := by simp [jsize] at hv; omega
        have hsx : jsafeL xs = true := by simpa [jsafe] using hs
        have he : encVal (.arr xs) = ('[' :: encList xs) ++ [']'] := rfl
        rw [he] at hc
        simp only [List.cons_append, List.mem_cons, List.mem_append,
          List.mem_singleton, List.not_mem_nil, or_false] at hc
        rcases hc with rfl | hc | rfl
        · exact ⟨by decide, by decide⟩
        · exact ihL xs hx hsx c hc
        · exact ⟨by decide, by decide⟩
      | obj ms =>
        have hm : jsizeO ms ≤ n := by simp [jsize] at hv; omega
        have hsm : jsafeO ms = true := by simpa [jsafe] using hs
        have he : encVal (.obj ms) = ('{' :: encObj ms) ++ ['}'] := rfl
        rw [he] at hc
        simp only [List.cons_append, List.mem_cons, List.mem_append,
          List.mem_singleton, List.not_mem_nil, or_false] at hc
        rcases hc with rfl | hc | rfl
        · exact ⟨by decide, by decide⟩
        · exact ihO ms hm hsm c hc
        · exact ⟨by decide, by decide⟩
    · intro xs hx hs c hc
      cases xs with
      | nil => simp [encList] at hc
      | cons y tl =>
        have h1 : jsize y ≤ n ∧ jsizeL tl ≤ n := by simp [jsizeL] at hx; omega
        have h2 : jsafe y = true ∧ jsafeL tl = true := by
          simpa [jsafeL, Bool.and_eq_true] using hs
        cases tl with
        | nil =>
          have he : encList (JList.cons y JList.nil) = (encVal y ++ []) ++ [] := rfl
          rw [he] at hc
          simp only [List.append_nil] at hc
          exact ihV y h1.1 h2.1 c hc
        | cons z tl2 =>
          have he : encList (JList.cons y (JList.cons z tl2))
              = (encVal y ++ [',', ' ']) ++ encList (JList.cons z tl2) := rfl
          rw [he] at hc
          rcases List.mem_append.mp hc with hc | hc
          · rcases List.mem_append.mp hc with hc | hc
            · exact ihV y h1.1 h2.1 c hc
            · exact (by decide : ∀ x ∈ [',', ' '], ¬(x = '%') ∧ ¬(x = '\n')) c hc
          · exact ihL (JList.cons z tl2) h1.2 h2.2 c hc
    · intro ms hm hs c hc
      cases ms with
      | nil => simp [encObj] at hc
      | cons k v tl =>
        have h1 : jsize v ≤ n ∧ jsizeO tl ≤ n := by simp [jsizeO] at hm; omega
        have h2 : (∀ x ∈ k, safeChar x = true) ∧ jsafe v = true ∧ jsafeO tl = true := by
          have h := hs
          simp only [jsafeO, Bool.and_eq_true, List.all_eq_true] at h
          tauto
        have hmidV : ∀ x ∈ '"' :: ':' :: ' ' :: encVal v, ¬(x = '%') ∧ ¬(x = '\n') := by
          intro x hx2
          rcases List.mem_cons.mp hx2 with rfl | hx2
          · exact ⟨by decide, by decide⟩
          · rcases List.mem_cons.mp hx2 with rfl | hx2
            · exact ⟨by decide, by decide⟩
            · rcases List.mem_cons.mp hx2 with rfl | hx2
              · exact ⟨by decide, by decide⟩
              · exact ihV v h1.1 h2.2.1 x hx2
        have hkeyV : ∀ x ∈ '"' :: k, ¬(x = '%') ∧ ¬(x = '\n') := by
          intro x hx2
          rcases List.mem_cons.mp hx2 with rfl | hx2
          · exact ⟨by decide, by decide⟩
          · exact ⟨(safeChar_spec x (h2.1 x hx2)).2.2.2.2, safeChar_no_nl x (h2.1 x hx2)⟩
        cases tl with
        | nil =>
          have he : encObj (JObj.cons k v JObj.nil)
              = ((('"' :: encStrBody k) ++ ('"' :: ':' :: ' ' :: encVal v)) ++ []) ++ []
              := rfl
          rw [he, encStrBody_safe k h2.1] at hc
          simp only [List.append_nil] at hc
          rcases List.mem_append.mp hc with hc | hc
          · exact hkeyV c hc
          · exact hmidV c hc
        | cons k2 v2 tl2 =>
          have he : encObj (JObj.cons k v (JObj.cons k2 v2 tl2))
              = ((('"' :: encStrBody k) ++ ('"' :: ':' :: ' ' :: encVal v)) ++ [',', ' '])
                ++ encObj (JObj.cons k2 v2 tl2) := rfl
          rw [he, encStrBody_safe k h2.1] at hc
          rcases List.mem_append.mp hc with hc | hc
          · rcases List.mem_append.mp hc with hc | hc
            · rcases List.mem_append.mp hc with hc | hc
              · exact hkeyV c hc
              · exact hmidV c hc
            · exact (by decide : ∀ x ∈ [',', ' '], ¬(x = '%') ∧ ¬(x = '\n')) c hc
          · exact ihO (JObj.cons k2 v2 tl2) h1.2 h2.2.2 c hc

/-- Character bound for one value. -/
theorem encVal_entry_chars (v : JValue) (h : jsafe v = true) :
    ∀ c ∈ encVal v, ¬(c = '%') ∧ ¬(c = '\n') :=
  (encVal_val_chars (jsize v)).1 v (le_refl _) h

theorem setValOk_no_pct : ∀ (fuel : Nat) (s : Str),
    (∀ c ∈ s, ¬(c = '%')) → s.length < fuel → setValOk fuel s = true := by
  intro fuel
  induction fuel with
  | zero => intro s _ hl; exact absurd hl (by omega)
  | succ f ih =>
    intro s hs hl
    cases s with
    | nil => rfl
    | cons c r =>
      have hc : ¬(c = '%') := hs c (by simp)
      simp only [setValOk]
      rw [if_neg hc]
      exact ih r (fun x hx => hs x (by simp [hx])) (by simp at hl; omega)

/-- `before_set` accepts every safely-encoded JSON value. -/
theorem beforeSetOk_encVal (v : JValue) (h : jsafe v = true) :
    beforeSetOk (encVal v) = true :=
  setValOk_no_pct _ _ (fun c hc => (encVal_entry_chars v h c hc).1) (by omega)

theorem interpAux_no_pct (m : IniSection) : ∀ (fuel : Nat) (s : Str),
    (∀ c ∈ s, ¬(c = '%')) → s.length < fuel → interpAux m fuel s = some s := by
  intro fuel
  induction fuel with
  | zero => intro s _ hl; exact absurd hl (by omega)
  | succ f ih =>
    intro s hs hl
    cases s with
    | nil => rfl
    | cons c r =>
      have hc : ¬(c = '%') := hs c (by simp)
      simp only [interpAux]
      rw [if_neg hc, ih r (fun x hx => hs x (by simp [hx])) (by simp at hl; omega)]
      rfl

/-- `before_get` is the identity on percent-free values. -/
theorem interpValue_no_pct (m : IniSection) (s : Str) (hs : ∀ c ∈ s, ¬(c = '%')) :
    interpValue m s = some s :=
  interpAux_no_pct m _ s hs (by omega)

theorem skipWs_eq_self (s : Str) (h : isWsChar (s.headD 'x') = false) : skipWs s = s := by
  cases s with
  | nil => rfl
  | cons c t => exact skipWs_cons_nws c t h

theorem strip_eq_self (s : Str) (h1 : isWsChar (s.headD 'x') = false)
    (h2 : isWsChar (s.reverse.headD 'x') = false) : strip s = s := by
  unfold strip
  rw [skipWs_eq_self s h1, skipWs_eq_self s.reverse h2, List.reverse_reverse]

theorem strip_cons_space (v : Str) (h1 : isWsChar (v.headD 'x') = false)
    (h2 : isWsChar (v.reverse.headD 'x') = false) : strip (' ' :: v) = v := by
  have hs : skipWs (' ' :: v) = skipWs v := rfl
  unfold strip
  rw [hs, skipWs_eq_self v h1, skipWs_eq_self v.reverse h2, List.reverse_reverse]

theorem strip_append_space (k : Str) (hne : k ≠ [])
    (h1 : isWsChar (k.headD 'x') = false) (h2 : isWsChar (k.reverse.headD 'x') = false) :
    strip (k ++ [' ']) = k := by
  unfold strip
  rw [skipWs_eq_self (k ++ [' ']) (by rw [headD_append _ _ _ hne]; exact h1)]
  rw [show (k ++ [' ']).reverse = ' ' :: k.reverse from by simp]
  rw [show skipWs (' ' :: k.reverse) = skipWs k.reverse from rfl]
  rw [skipWs_eq_self k.reverse h2, List.reverse_reverse]

theorem reverse_headD_last (pre v : Str) (d : Char) (hv : v ≠ []) :
    ((pre ++ v).reverse).headD d = v.reverse.headD d := by
  rw [List.reverse_append]
  exact headD_append _ _ _ (by simpa using hv)

theorem map_id_of_mem {α : Type} (l : List α) (f : α → α) (h : ∀ a ∈ l, f a = a) :
    l.map f = l := by
  induction l with
  | nil => rfl
  | cons a t ih =>
    simp only [List.map_cons, h a (by simp), ih (fun x hx => h x (by simp [hx]))]

theorem keySafeChar_spec (c : Char) (h : keySafeChar c = true) :
    Char.toLower c = c ∧ isWsChar c = false ∧ ¬(c = '=') ∧ ¬(c = ':') ∧ ¬(c = '[')
      ∧ ¬(c = '#') ∧ ¬(c = ';') := by
  simp only [keySafeChar, Bool.and_eq_true, decide_eq_true_eq, Bool.not_eq_true'] at h
  tauto

theorem keySafe_spec (k : Str) (h : keySafe k = true) :
    k ≠ [] ∧ ∀ x ∈ k, keySafeChar x = true := by
  simp only [keySafe, Bool.and_eq_true, Bool.not_eq_true', List.all_eq_true] at h
  refine ⟨?_, h.2⟩
  intro he
  subst he
  exact absurd h.1 (by decide)

theorem toLowerStr_keySafe (k : Str) (h : keySafe k = true) : toLowerStr k = k :=
  map_id_of_mem k Char.toLower
    (fun c hc => (keySafeChar_spec c ((keySafe_spec k h).2 c hc)).1)

theorem entryValOk_spec (v : Str) (h : entryValOk v = true) :
    v ≠ [] ∧ isWsChar (v.headD 'x') = false ∧ isWsChar (v.reverse.headD 'x') = false ∧
      ∀ x ∈ v, ¬(x = '%') ∧ ¬(x = '\n') := by
  simp only [entryValOk, Bool.and_eq_true, Bool.not_eq_true', List.all_eq_true] at h
  obtain ⟨⟨⟨hne, hh⟩, hl⟩, hall⟩ := h
  refine ⟨?_, hh, hl, ?_⟩
  · intro he; subst he; exact absurd hne (by decide)
  · intro x hx
    have h2 := hall x hx
    simp only [Bool.and_eq_true, decide_eq_true_eq] at h2
    exact h2

/-- A safely-encoded JSON value survives the INI writer/reader unchanged. -/
theorem entryValOk_encVal (v : JValue) (h : jsafe v = true) :
    entryValOk (encVal v) = true := by
  obtain ⟨c, t, hct, hws, _, _⟩ := encVal_head_spec v
  simp only [entryValOk, Bool.and_eq_true, Bool.not_eq_true', List.all_eq_true]
  refine ⟨⟨⟨?_, ?_⟩, ?_⟩, ?_⟩
  · rw [hct]; rfl
  · rw [hct]; exact hws
  · exact encVal_last_not_ws v
  · intro x hx
    have h2 := encVal_entry_chars v h x hx
    simp only [Bool.and_eq_true, decide_eq_true_eq]
    exact h2

theorem splitDelim_keyed : ∀ (k : Str), (∀ x ∈ k, ¬(x = '=') ∧ ¬(x = ':')) → ∀ v : Str,
    splitDelim ((k ++ [' ', '=', ' ']) ++ v) = some (k ++ [' '], ' ' :: v) := by
  intro k
  induction k with
  | nil =>
    intro _ v
    show splitDelim (' ' :: '=' :: ' ' :: v) = _
    simp [splitDelim]
  | cons c t ih =>
    intro h v
    have hc := h c (by simp)
    have hcond : (decide (c = '=') || decide (c = ':')) = false := by
      simp [hc.1, hc.2]
    show splitDelim (c :: ((t ++ [' ', '=', ' ']) ++ v)) = _
    simp only [splitDelim]
    simp only [hcond, Bool.false_eq_true, if_false]
    rw [ih (fun x hx => h x (by simp [hx])) v]
    simp

theorem alookup_eq_none {α : Type} (k : Str) : ∀ (l : List (Str × α)),
    k ∉ l.map Prod.fst → alookup k l = none := by
  intro l
  induction l with
  | nil => intro _; rfl
  | cons kv tl ih =>
    intro h
    simp only [List.map_cons, List.mem_cons] at h
    push_neg at h
    show (if kv.1 = k then some kv.2 else alookup k tl) = none
    rw [if_neg (fun he => h.1 he.symm), ih h.2]

theorem aset_append_not_mem {α : Type} (k : Str) (v : α) : ∀ (l : List (Str × α)),
    k ∉ l.map Prod.fst → aset k v l = l ++ [(k, v)] := by
  intro l
  induction l with
  | nil => intro _; rfl
  | cons kv tl ih =>
    intro h
    simp only [List.map_cons, List.mem_cons] at h
    push_neg at h
    show (if kv.1 = k then (k, v) :: tl else (kv.1, kv.2) :: aset k v tl)
        = (kv :: tl) ++ [(k, v)]
    rw [if_neg (fun he => h.1 he.symm), ih h.2]
    rfl

theorem mapM_option_eq_map {α β : Type} (f : α → Option β) (g : α → β) :
    ∀ l : List α, (∀ a ∈ l, f a = some (g a)) → l.mapM f = some (l.map g) := by
  intro l
  induction l with
  | nil => intro _; rfl
  | cons a t ih =>
    intro h
    simp only [List.mapM_cons, h a (by simp), ih (fun x hx => h x (by simp [hx])),
      Option.bind_eq_bind, Option.some_bind, List.map_cons]
    rfl

theorem ex_bind_ok {α β : Type} (a : α) (f : α → Except Unit β) :
    (Except.ok a >>= f) = f a := rfl

/-- The `config.set` loop appends one rendered option per state key. -/
theorem gsSetAll_go : ∀ (st : GState) (acc : IniSection),
    (∀ kv ∈ st, keySafe kv.1 = true ∧ jsafe kv.2 = true) →
    (acc.map Prod.fst ++ st.map Prod.fst).Nodup →
    List.foldlM
      (fun acc2 kv =>
        if beforeSetOk (encVal kv.2) then
          Except.ok (aset (toLowerStr kv.1) (encVal kv.2) acc2)
        else Except.error ())
      acc st
      = Except.ok (acc ++ st.map (fun kv => (kv.1, encVal kv.2))) := by
  intro st
  induction st with
  | nil =>
    intro acc _ _
    simp only [List.foldlM_nil, List.map_nil, List.append_nil]
    rfl
  | cons kv tl ih =>
    intro acc h hnd
    have hkv := h kv (by simp)
    have hkm : kv.1 ∉ acc.map Prod.fst :=
      fun hmem => (List.nodup_append.mp hnd).2.2 hmem
        (by rw [List.map_cons]; exact List.mem_cons_self _ _)
    simp only [List.foldlM_cons]
    rw [if_pos (beforeSetOk_encVal kv.2 hkv.2)]
    rw [toLowerStr_keySafe kv.1 hkv.1]
    rw [aset_append_not_mem kv.1 _ acc hkm]
    simp only [ex_bind_ok]
    have hnd2 : ((acc ++ [(kv.1, encVal kv.2)]).map Prod.fst ++ tl.map Prod.fst).Nodup := by
      simp only [List.map_append, List.map_cons, List.map_nil]
      simpa using hnd
    rw [ih (acc ++ [(kv.1, encVal kv.2)]) (fun x hx => h x (by simp [hx])) hnd2]
    simp

/-- `GlobalState.save`'s `config.set` phase succeeds on safe states and
records exactly the JSON-encoded values. -/
theorem gsSetAll_ok (st : GState)
    (h : ∀ kv ∈ st, keySafe kv.1 = true ∧ jsafe kv.2 = true)
    (hnd : (st.map Prod.fst).Nodup) :
    gsSetAll st = .ok (st.map (fun kv => (kv.1, encVal kv.2))) := by
  have hg := gsSetAll_go st [] h (by simpa using hnd)
  exact hg.trans (by simp)

theorem gsSave_ok (st : GState)
    (h : ∀ kv ∈ st, keySafe kv.1 = true ∧ jsafe kv.2 = true)
    (hnd : (st.map Prod.fst).Nodup) :
    gsSave st = .ok (iniRender (st.map (fun kv => (kv.1, encVal kv.2)))) := by
  unfold gsSave
  rw [gsSetAll_ok st h hnd]
  rfl

/-- The pieces of one rendered `key = value` line, as the INI reader sees it. -/
theorem line_facts (k v : Str) (hk : keySafe k = true) (hv : entryValOk v = true) :
    ∃ c restL, (k ++ [' ', '=', ' ']) ++ v = c :: restL ∧
      strip (c :: restL) = c :: restL ∧
      (decide (c = '#') || decide (c = ';')) = false ∧
      isWsChar c = false ∧ ¬(c = '[') ∧
      splitDelim (c :: restL) = some (k ++ [' '], ' ' :: v) ∧
      toLowerStr (strip (k ++ [' '])) = k ∧ strip (' ' :: v) = v := by
  obtain ⟨hkne, hkall⟩ := keySafe_spec k hk
  obtain ⟨hvne, hvh, hvl, _⟩ := entryValOk_spec v hv
  cases k with
  | nil => exact absurd rfl hkne
  | cons c k2 =>
    obtain ⟨hlow, hcws, heq, hcol, hbr, hhash, hsemi⟩ := keySafeChar_spec c (hkall c (by simp))
    have hlast : isWsChar ((c :: k2).reverse.headD 'x') = false := by
      have hm : (c :: k2).reverse.headD 'x' ∈ (c :: k2).reverse :=
        headD_mem _ _ (by simp)
      rw [List.mem_reverse] at hm
      exact (keySafeChar_spec _ (hkall _ hm)).2.1
    have hline : ((c :: k2) ++ [' ', '=', ' ']) ++ v
        = c :: ((k2 ++ [' ', '=', ' ']) ++ v) := by simp
    have hrevh : isWsChar ((c :: ((k2 ++ [' ', '=', ' ']) ++ v)).reverse.headD 'x')
        = false := by
      rw [show c :: ((k2 ++ [' ', '=', ' ']) ++ v)
          = ((c :: (k2 ++ [' ', '=', ' '])) ++ v) from by simp]
      rw [reverse_headD_last _ v 'x' hvne]
      exact hvl
    have hsd := splitDelim_keyed (c :: k2)
      (fun x hx => ⟨(keySafeChar_spec x (hkall x hx)).2.2.1,
        (keySafeChar_spec x (hkall x hx)).2.2.2.1⟩) v
    rw [hline] at hsd
    refine ⟨c, (k2 ++ [' ', '=', ' ']) ++ v, hline, ?_, ?_, hcws, hbr, hsd, ?_, ?_⟩
    · exact strip_eq_self _ hcws hrevh
    · simp [hhash, hsemi]
    · rw [strip_append_space (c :: k2) (by simp) hcws hlast]
      exact toLowerStr_keySafe _ hk
    · exact strip_cons_space v hvh hvl

/-- The INI reader accumulates every rendered option line into the open
section and closes it at end of file. -/
theorem iniParseGo_entries : ∀ (es : IniSection) (name : Str) (acc : IniSection)
    (done : IniConfig),
    (∀ kv ∈ es, keySafe kv.1 = true ∧ entryValOk kv.2 = true) →
    (acc.map Prod.fst ++ es.map Prod.fst).Nodup →
    iniParseGo (es.map (fun kv => (kv.1 ++ [' ', '=', ' ']) ++ kv.2) ++ [[]]) done
      (some (name, acc)) = .ok (done ++ [(name, acc ++ es)]) := by
  intro es
  induction es with
  | nil =>
    intro name acc done _ _
    simp only [List.map_nil, List.nil_append, List.append_nil]
    rfl
  | cons kv tl ih =>
    intro name acc done h hnd
    have hkv := h kv (by simp)
    obtain ⟨c, restL, hline, hstrip, hcomm, hws, hbr, hsplit, hklow, hvstrip⟩ :=
      line_facts kv.1 kv.2 hkv.1 hkv.2
    have halk : alookup kv.1 acc = none := by
      apply alookup_eq_none
      intro hmem
      exact (List.nodup_append.mp hnd).2.2 hmem (by simp)
    simp only [List.map_cons, List.cons_append]
    rw [hline]
    simp only [iniParseGo]
    rw [hstrip]
    rw [if_neg (List.cons_ne_nil c restL)]
    simp only [List.headD_cons]
    simp only [hcomm, Bool.false_eq_true, if_false]
    simp only [hws, Bool.false_eq_true, if_false]
    rw [if_neg hbr]
    simp only [hsplit, halk, hklow, hvstrip, Option.isSome_none, Bool.false_eq_true,
      if_false, Prod.mk.eta]
    have hnd2 : ((acc ++ [kv]).map Prod.fst ++ tl.map Prod.fst).Nodup := by
      simp only [List.map_append, List.map_cons, List.map_nil]
      simpa using hnd
    rw [ih name (acc ++ [kv]) done (fun x hx => h x (by simp [hx])) hnd2]
    simp

/-- Reading back a rendered single-section file recovers the section. -/
theorem iniParse_render (es : IniSection)
    (h : ∀ kv ∈ es, keySafe kv.1 = true ∧ entryValOk kv.2 = true)
    (hnd : (es.map Prod.fst).Nodup) :
    iniParse (iniRender es) = .ok [("state".toList, es)] := by
  have h0 : iniParse (iniRender es)
      = iniParseGo (es.map (fun kv => (kv.1 ++ [' ', '=', ' ']) ++ kv.2) ++ [[]]) []
          (some ("state".toList, [])) := rfl
  rw [h0, iniParseGo_entries es "state".toList [] [] h (by simpa using hnd)]
  simp

/-- `GlobalState.load` after parsing a rendered file yields one entry per
line, each value decoded (or kept raw on a JSON error). -/
theorem gsLoad_render (st0 : GState) (es : IniSection)
    (h : ∀ kv ∈ es, keySafe kv.1 = true ∧ entryValOk kv.2 = true)
    (hnd : (es.map Prod.fst).Nodup) :
    gsLoad st0 (some (iniRender es)) = es.map (fun kv => (kv.1, jsonDecodeOrRaw kv.2)) := by
  have hmap : es.mapM (fun kv => (interpValue es kv.2).map (fun v => (kv.1, v)))
      = some (es.map id) := by
    apply mapM_option_eq_map
    intro kv hkv
    rw [interpValue_no_pct es kv.2
      (fun x hx => ((entryValOk_spec kv.2 (h kv hkv).2).2.2.2 x hx).1)]
    rfl
  have halk : alookup "state".toList [("state".toList, es)] = some es := by
    simp [alookup]
  simp only [gsLoad]
  rw [iniParse_render es h hnd]
  simp only [halk, hmap, List.map_id]

/-! ## Association-list lemmas -/

theorem alookup_aset_self (k : Str) (v : α) (l : List (Str × α)) :
    alookup k (aset k v l) = some v := by
  induction l with
  | nil => simp [aset, alookup]
  | cons hd tl ih =>
    by_cases h : hd.1 = k
    · simp [aset, alookup, h]
    · simp [aset, alookup, h, ih]

theorem alookup_aset_ne (k k2 : Str) (v : α) (l : List (Str × α)) (h : k2 ≠ k) :
    alookup k2 (aset k v l) = alookup k2 l := by
  have h2 : ¬ (k = k2) := fun hk => h hk.symm
  induction l with
  | nil => simp [aset, alookup, h2]
  | cons hd tl ih =>
    by_cases hh : hd.1 = k
    · have hne : ¬ hd.1 = k2 := by rw [hh]; exact h2
      simp [aset, alookup, hh, h2, hne]
    · simp [aset, alookup, hh, ih]

/-! ## Package-manager loop lemmas (claim C2) -/

theorem ipcmEnterGo_all_ok (ok : List Str → Bool) (opts : List Str) :
    ∀ (ps : List Str) (tr : Trace),
      (∀ p ∈ ps, ok (pmInstallCmd p opts) = true) →
      ipcmEnterGo ok opts ps tr = (.ok (), tr ++ ps.map (fun p => pmInstallCmd p opts)) := by
  intro ps
  induction ps with
  | nil => intro tr _; simp [ipcmEnterGo]
  | cons p ps ih =>
    intro tr h
    have hp : ok (pmInstallCmd p opts) = true := h p (by simp)
    have hrest : ∀ q ∈ ps, ok (pmInstallCmd q opts) = true := fun q hq => h q (by simp [hq])
    simp [ipcmEnterGo, pmInstall, hp, ih _ hrest]

theorem ipcmExitGo_all_ok (ok : List Str → Bool) :
    ∀ (ps : List Str) (tr : Trace),
      (∀ p ∈ ps, ok (pmUninstallCmd p) = true) →
      ipcmExitGo ok ps tr = (.ok (), tr ++ ps.map pmUninstallCmd) := by
  intro ps
  induction ps with
  | nil => intro tr _; simp [ipcmExitGo]
  | cons p ps ih =>
    intro tr h
    have hp : ok (pmUninstallCmd p) = true := h p (by simp)
    have hrest : ∀ q ∈ ps, ok (pmUninstallCmd q) = true := fun q hq => h q (by simp [hq])
    simp [ipcmExitGo, pmUninstall, hp, ih _ hrest]

/-! ## Claim C3 -/

/-- C3: the claim states that `is_active()` is true iff `VIRTUAL_ENV` is set
and equals the manager's root, and additionally that a non-virtual manager's
`is_active()` is unconditionally false.  The code never consults
`is_virtual`: this manager resolves `/usr/local/bin`, classifies it as
non-virtual, and still reports `is_active() = true` when `VIRTUAL_ENV`
points at the same path — refuting the claim's final conjunct at a concrete
input. -/
theorem C3_counterexample :
    (let sys : SysCtx :=
      { win := false, cwd := "/home/u".toList,
        executable := "/usr/bin/python3".toList, prefixDir := "/usr".toList }
     let s : ProcState :=
      { environ := [("VIRTUAL_ENV".toList, "/usr/local/bin".toList)], sysPath := [] }
     let m := mkEnvMgr sys s (some "/usr/local/bin".toList)
     m.env.is_virtual = false ∧ is_active sys s.environ m = true) := by
  decide

/-- C3 (amended): `is_active()` is true iff the `VIRTUAL_ENV` marker is set
and its absolute path equals the absolute path of the manager's environment
root; the check does not consult `is_virtual`, so it is not unconditionally
false for non-virtual environments. -/
theorem C3_is_active_iff (sys : SysCtx) (environ : EnvTable) (m : EnvMgr) :
    is_active sys environ m = true ↔
      ∃ v, alookup "VIRTUAL_ENV".toList environ = some v ∧
        abspath sys.cwd v = abspath sys.cwd m.env.root := by
  unfold is_active
  cases h : alookup "VIRTUAL_ENV".toList environ with
  | none => simp
  | some v => simp [beq_iff_eq]

/-! ## Claim C5 -/

/-- C5: the claim states that an external-command failure exits the process
with the command's own exit code, and that a dev-tools failure triggers the
state reset.  At the concrete input of a `CalledProcessError` with return
code 7 the process exits with 1, and a `DevToolsError` records
`exit_status.exit_code = 1`, so the exit handler does not reset. -/
theorem C5_counterexample :
    (mainExcept (.calledProcess 7)).2 = 1 ∧ ((1 : Int) ≠ 7) ∧
    (mainExcept .devTools).1.exit_code = 1 ∧
    exitHandlerResets (mainExcept .devTools).1.exit_code = false := by
  decide

/-- C5 (amended): a dev-tools error or a keyboard interrupt exits the process
with code 2 but records `exit_status.exit_code = 1`; an external-command
failure exits with code 1 while recording the command's own return code in
`exit_status`; any other exception exits with code 1; and the exit handler
resets the state exactly when the recorded code equals 2 — which can only
follow from an external command that failed with return code 2, never from a
dev-tools error or interrupt. -/
theorem C5_exit_code_table :
    (∀ rc : Int, mainExcept (.calledProcess rc) = ({ exit_code := rc }, 1)) ∧
    mainExcept .devTools = ({ exit_code := 1 }, 2) ∧
    mainExcept .keyboard = ({ exit_code := 1 }, 2) ∧
    mainExcept .other = ({ exit_code := 1 }, 1) ∧
    (∀ r : Int, exitHandlerResets r = true ↔ r = 2) := by
  refine ⟨fun rc => rfl, rfl, rfl, rfl, fun r => ?_⟩
  simp [exitHandlerResets]

/-! ## Claim C8 -/

/-- C8: for every `Environment` built from a path (environment.py),
`is_virtual` equals the negation of `is_local` on the resolved root; whenever
`is_virtual` is false the `python` field is the running interpreter's
executable, and whenever it is true the `python` field is the
platform-derived bin-relative interpreter path. -/
theorem C8_environment_invariants (sys : SysCtx) (environ : EnvTable) (path : Option Str) :
    (environment_py.ofPath sys environ path).is_virtual
        = ! environment_py.is_local sys.win (environment_py.ofPath sys environ path).root ∧
    ((environment_py.ofPath sys environ path).is_virtual = false →
      (environment_py.ofPath sys environ path).python = sys.executable) ∧
    ((environment_py.ofPath sys environ path).is_virtual = true →
      (environment_py.ofPath sys environ path).python
        = joinPath (environment_py.ofPath sys environ path).bin
            (if sys.win then "python.exe".toList else "python".toList)) := by
  refine ⟨rfl, ?_, ?_⟩
  · intro h
    have h' : environment_py.is_local sys.win
        (environment_py.ofPath sys environ path).root = true := by
      revert h
      show (! environment_py.is_local sys.win (environment_py.ofPath sys environ path).root)
          = false → _
      cases environment_py.is_local sys.win (environment_py.ofPath sys environ path).root <;>
        simp
    show (if (! environment_py.is_local sys.win (environment_py.ofPath sys environ path).root)
            = true
          then joinPath (environment_py.ofPath sys environ path).bin
                 (if sys.win then "python.exe".toList else "python".toList)
          else sys.executable) = sys.executable
    rw [h']
    simp
  · intro h
    have h' : environment_py.is_local sys.win
        (environment_py.ofPath sys environ path).root = false := by
      revert h
      show (! environment_py.is_local sys.win (environment_py.ofPath sys environ path).root)
          = true → _
      cases environment_py.is_local sys.win (environment_py.ofPath sys environ path).root <;>
        simp
    show (if (! environment_py.is_local sys.win (environment_py.ofPath sys environ path).root)
            = true
          then joinPath (environment_py.ofPath sys environ path).bin
                 (if sys.win then "python.exe".toList else "python".toList)
          else sys.executable)
        = joinPath (environment_py.ofPath sys environ path).bin
            (if sys.win then "python.exe".toList else "python".toList)
    rw [h']
    simp

/-- C8 witness: a root that classifies as local yields `is_virtual = false`
and `python` equal to the running interpreter's path. -/
theorem C8_witness :
    (let sys : SysCtx :=
      { win := false, cwd := "/home/u".toList,
        executable := "/usr/bin/python3".toList, prefixDir := "/usr".toList }
     (environment_py.ofPath sys [] (some "/usr/local/bin".toList)).is_virtual = false) ∧
    (let sys : SysCtx :=
      { win := false, cwd := "/home/u".toList,
        executable := "/usr/bin/python3".toList, prefixDir := "/usr".toList }
     (environment_py.ofPath sys [] (some "/usr/local/bin".toList)).python
        = "/usr/bin/python3".toList) := by
  refine ⟨by decide, ?_⟩
  exact (C8_environment_invariants _ [] (some "/usr/local/bin".toList)).2.1 (by decide)

/-! ## Claim C10 -/

/-- C10: every `release("beta"|"prod")` or `deploy("test"|"prod")` call
raises before any external command is dispatched: the trace of executed
commands stays empty and the result is an error, because
`Setup.get_env_manager()` is invoked on the class (raising `TypeError`) —
directly in `deploy`, and inside `_install_if_needed` for `release` (whose
own instance-level setup call precedes any command). -/
theorem C10_release_deploy_raise_before_commands
    (setupRes : Except PyExc EnvMgr) (rest : Trace → (Except PyExc Unit) × Trace)
    (rtype target : Str) (tr : Trace)
    (hval : rtype = "beta".toList ∨ rtype = "prod".toList) :
    ((devToolsRelease setupRes rtype rest tr).2 = tr ∧
      ∃ e, (devToolsRelease setupRes rtype rest tr).1 = .error e) ∧
    ((devToolsDeploy target rest tr).2 = tr ∧
      ∃ e, (devToolsDeploy target rest tr).1 = .error e) := by
  refine ⟨?_, rfl, .typeError, rfl⟩
  cases setupRes with
  | error e => exact ⟨rfl, e, rfl⟩
  | ok m =>
    rcases hval with h | h <;> subst h <;>
      exact ⟨by simp [devToolsRelease, installIfNeeded, setupGetEnvManagerClassCall],
        .typeError, by simp [devToolsRelease, installIfNeeded, setupGetEnvManagerClassCall]⟩

/-- C10 witness: at the concrete inputs `release("beta")` and
`deploy("test")` with a successfully resolved manager, both calls error out
with an untouched trace. -/
theorem C10_witness :
    (("beta".toList = "beta".toList ∨ ("beta" : String).toList = "prod".toList) ∧
      ((devToolsRelease
          (.ok (mkEnvMgr
            { win := false, cwd := "/home/u".toList,
              executable := "/usr/bin/python3".toList, prefixDir := "/usr".toList }
            { environ := [], sysPath := [] } (some "/proj/.venv".toList)))
          "beta".toList (fun tr => (.ok (), tr)) []).2 = [] ∧
        ∃ e, (devToolsRelease
          (.ok (mkEnvMgr
            { win := false, cwd := "/home/u".toList,
              executable := "/usr/bin/python3".toList, prefixDir := "/usr".toList }
            { environ := [], sysPath := [] } (some "/proj/.venv".toList)))
          "beta".toList (fun tr => (.ok (), tr)) []).1 = .error e) ∧
      ((devToolsDeploy "test".toList (fun tr => (.ok (), tr)) []).2 = [] ∧
        ∃ e, (devToolsDeploy "test".toList (fun tr => (.ok (), tr)) []).1 = .error e)) :=
  ⟨Or.inl rfl,
    C10_release_deploy_raise_before_commands _ _ _ "test".toList _ (Or.inl rfl)⟩

/-! ## Claim C2 -/

/-- C2: the claim states that every `InstallPkgContextManager` installs its
packages at construction.  The package_manager.py variant does not: at this
concrete input, construction dispatches no command at all (empty trace, the
`_installed` flag still false), and the install command is first dispatched
by `__enter__`. -/
theorem C2_counterexample :
    (ipcmInit ["pkg".toList] [] []).2 = ([] : Trace) ∧
    (ipcmInit ["pkg".toList] [] []).1.installed = false ∧
    (ipcmEnter (fun _ => true) (ipcmInit ["pkg".toList] [] []).1 []).2
      = [["pip".toList, "install".toList, "pkg".toList]] := by
  decide

/-- C2 (amended): the env_manager.py `InstallPkgContextManager` installs its
package synchronously at construction and its scope exit dispatches exactly
one uninstall, regardless of whether the body raised; the package_manager.py
variant defers installation to scope entry (construction dispatches nothing)
and, once entry completed, a full scoped use dispatches exactly one install
and exactly one uninstall per package, again regardless of whether the body
raised. -/
theorem C2_install_timing (ok : List Str → Bool) (package : Str)
    (packages pip_options : List Str) (bodyFails : Bool) (tr : Trace)
    (h1 : ok ["pip".toList, "install".toList, package] = true)
    (h2 : ok ["pip".toList, "uninstall".toList, "-y".toList, package] = true)
    (hins : ∀ p ∈ packages, ok (pmInstallCmd p pip_options) = true)
    (huni : ∀ p ∈ packages, ok (pmUninstallCmd p) = true) :
    (emIpcmInit ok package tr).2 = tr ++ [["pip".toList, "install".toList, package]] ∧
    (emIpcmWith ok package bodyFails tr).2
      = tr ++ [["pip".toList, "install".toList, package],
               ["pip".toList, "uninstall".toList, "-y".toList, package]] ∧
    (ipcmInit packages pip_options tr).2 = tr ∧
    (ipcmWith ok packages pip_options bodyFails tr).2
      = tr ++ packages.map (fun p => pmInstallCmd p pip_options)
           ++ packages.map pmUninstallCmd := by
  refine ⟨by simp [emIpcmInit], ?_, rfl, ?_⟩
  · simp at h1 h2
    cases bodyFails <;> simp [emIpcmWith, emIpcmInit, emIpcmExit, h1, h2]
  · have he := ipcmEnterGo_all_ok ok pip_options packages tr hins
    have hx := ipcmExitGo_all_ok ok packages
      (tr ++ packages.map (fun p => pmInstallCmd p pip_options)) huni
    simp only [ipcmWith, ipcmInit, ipcmEnter, ipcmExit, he, hx]
    cases bodyFails <;> simp

/-- Lookup of the activation marker after the mutations `activate` performs:
setting `VIRTUAL_ENV` and then possibly `PATH` leaves the marker at the
environment root. -/
theorem alookup_vmarker_after_activate (base : EnvTable) (root pathv : Str) (cond : Bool) :
    alookup "VIRTUAL_ENV".toList
      (if cond then aset "VIRTUAL_ENV".toList root base
       else aset "PATH".toList pathv (aset "VIRTUAL_ENV".toList root base))
      = some root := by
  cases cond with
  | true => simp [alookup_aset_self]
  | false =>
    simp only [Bool.false_eq_true, if_false]
    rw [alookup_aset_ne _ _ _ _ (by decide : "VIRTUAL_ENV".toList ≠ "PATH".toList)]
    exact alookup_aset_self _ _ _

/-- C4: for a virtual manager that is not already active, `activate()`
followed by `deactivate()` restores `os.environ` and `sys.path` exactly to
their pre-activation snapshot; in particular `VIRTUAL_ENV` is absent
afterwards if it was absent before, and `PATH` is restored verbatim. -/
theorem C4_round_trip (sys : SysCtx) (fs : Str → Bool) (m : EnvMgr) (s : ProcState)
    (hv : m.env.is_virtual = true)
    (h : is_active sys s.environ m = false) :
    (deactivate sys (activate sys fs m s).1 (activate sys fs m s).2).environ = s.environ ∧
    (deactivate sys (activate sys fs m s).1 (activate sys fs m s).2).sysPath = s.sysPath ∧
    (alookup "VIRTUAL_ENV".toList s.environ = none →
      alookup "VIRTUAL_ENV".toList
        (deactivate sys (activate sys fs m s).1 (activate sys fs m s).2).environ = none) ∧
    alookup "PATH".toList
        (deactivate sys (activate sys fs m s).1 (activate sys fs m s).2).environ
      = alookup "PATH".toList s.environ := by
  have key : (deactivate sys (activate sys fs m s).1 (activate sys fs m s).2).environ = s.environ ∧
      (deactivate sys (activate sys fs m s).1 (activate sys fs m s).2).sysPath = s.sysPath := by
    simp only [activate, h, Bool.false_eq_true, if_false]
    cases hfs : fs (joinPath m.env.bin (if sys.win then "activate.bat".toList else "activate".toList)) with
    | false =>
      simp only [hfs, Bool.not_false, if_true]
      have hna : is_active sys s.environ
          { m with origEnv := s.environ, origPath := s.sysPath } = false := h
      simp [deactivate, hna]
    | true =>
      simp only [hfs, Bool.not_true, Bool.false_eq_true, if_false]
      unfold deactivate is_active
      rw [alookup_vmarker_after_activate]
      simp
  refine ⟨key.1, key.2, ?_, ?_⟩
  · intro hn
    rw [key.1]
    exact hn
  · rw [key.1]

/-- C4 witness: a concrete virtual manager, inactive before the call, whose
environment table and module path return to their exact pre-activation
values. -/
theorem C4_witness :
    (let sys : SysCtx :=
      { win := false, cwd := "/home/u".toList,
        executable := "/usr/bin/python3".toList, prefixDir := "/usr".toList }
     let s : ProcState :=
      { environ := [("PATH".toList, "/bin".toList)], sysPath := ["/x".toList] }
     let fs : Str → Bool := fun p => p == "/venv/bin/activate".toList
     let m := mkEnvMgr sys s (some "/venv".toList)
     m.env.is_virtual = true ∧ is_active sys s.environ m = false ∧
      ((deactivate sys (activate sys fs m s).1 (activate sys fs m s).2).environ = s.environ ∧
       (deactivate sys (activate sys fs m s).1 (activate sys fs m s).2).sysPath = s.sysPath ∧
       (alookup "VIRTUAL_ENV".toList s.environ = none →
         alookup "VIRTUAL_ENV".toList
           (deactivate sys (activate sys fs m s).1 (activate sys fs m s).2).environ = none) ∧
       alookup "PATH".toList
           (deactivate sys (activate sys fs m s).1 (activate sys fs m s).2).environ
         = alookup "PATH".toList s.environ)) :=
  ⟨by decide, by decide, C4_round_trip _ _ _ _ (by decide) (by decide)⟩

/-- C1: a standard `Runner` (and the progress-spinner runner) bound to a
manager by `with_env` prepares the command through the manager's
`_prepare_command` and executes exactly that prepared command, returning the
completed process (when `check` is requested, provided the command
succeeds). -/
theorem C1_runner_executes_manager_prepared_command
    (oracle : SubprocOracle) (sys : SysCtx) (fs : Str → Bool) (m : EnvMgr)
    (cmdArgs : List Str) (capture_output : Bool) (kw : KwIn)
    (hne : cmdArgs ≠ [])
    (hrc : (prepareCore sys fs m cmdArgs capture_output kw).2.check = true →
      (oracle (prepareCore sys fs m cmdArgs capture_output kw).1).returncode = 0) :
    prepareCommand sys fs m cmdArgs capture_output kw
        = .ok (prepareCore sys fs m cmdArgs capture_output kw) ∧
    runnerRun oracle sys fs (some m) cmdArgs capture_output kw
        = .ok (oracle (prepareCore sys fs m cmdArgs capture_output kw).1) ∧
    progressRunnerRun oracle sys fs (some m) cmdArgs capture_output kw
        = .ok (oracle (prepareCore sys fs m cmdArgs capture_output kw).1) := by
  have hempty : cmdArgs.isEmpty = false := by
    cases cmdArgs with
    | nil => exact absurd rfl hne
    | cons a t => rfl
  have hprep : prepareCommand sys fs m cmdArgs capture_output kw
      = .ok (prepareCore sys fs m cmdArgs capture_output kw) := by
    simp [prepareCommand, hempty]
  refine ⟨hprep, ?_, ?_⟩
  · simp only [runnerRun, hprep]
    unfold subprocessRun
    cases hc : (prepareCore sys fs m cmdArgs capture_output kw).2.check with
    | false => simp [hc]
    | true => simp [hc, hrc hc]
  · simp only [progressRunnerRun, hprep]
    cases hc : (prepareCore sys fs m cmdArgs capture_output kw).2.check with
    | false => simp [hc]
    | true => simp [hc, hrc hc]

/-- C1 witness: a concrete bound runner executing `pip list` in a virtual
environment returns exactly the completed process of the prepared command. -/
theorem C1_witness :
    ((["pip".toList, "list".toList] : List Str) ≠ [] ∧
      ((prepareCore
          { win := false, cwd := "/home/u".toList,
            executable := "/usr/bin/python3".toList, prefixDir := "/usr".toList }
          (fun p => p == "/venv/bin/activate".toList)
          (mkEnvMgr
            { win := false, cwd := "/home/u".toList,
              executable := "/usr/bin/python3".toList, prefixDir := "/usr".toList }
            { environ := [], sysPath := [] } (some "/venv".toList))
          ["pip".toList, "list".toList] true {}).2.check = true →
        ((fun _ => ({ returncode := 0, stdout := some [], stderr := some [] }
            : CompletedProcess)) (prepareCore
          { win := false, cwd := "/home/u".toList,
            executable := "/usr/bin/python3".toList, prefixDir := "/usr".toList }
          (fun p => p == "/venv/bin/activate".toList)
          (mkEnvMgr
            { win := false, cwd := "/home/u".toList,
              executable := "/usr/bin/python3".toList, prefixDir := "/usr".toList }
            { environ := [], sysPath := [] } (some "/venv".toList))
          ["pip".toList, "list".toList] true {}).1).returncode = 0)) ∧
    runnerRun (fun _ => { returncode := 0, stdout := some [], stderr := some [] })
        { win := false, cwd := "/home/u".toList,
          executable := "/usr/bin/python3".toList, prefixDir := "/usr".toList }
        (fun p => p == "/venv/bin/activate".toList)
        (some (mkEnvMgr
          { win := false, cwd := "/home/u".toList,
            executable := "/usr/bin/python3".toList, prefixDir := "/usr".toList }
          { environ := [], sysPath := [] } (some "/venv".toList)))
        ["pip".toList, "list".toList] true {}
      = .ok ((fun _ => { returncode := 0, stdout := some [], stderr := some [] })
          ((prepareCore
            { win := false, cwd := "/home/u".toList,
              executable := "/usr/bin/python3".toList, prefixDir := "/usr".toList }
            (fun p => p == "/venv/bin/activate".toList)
            (mkEnvMgr
              { win := false, cwd := "/home/u".toList,
                executable := "/usr/bin/python3".toList, prefixDir := "/usr".toList }
              { environ := [], sysPath := [] } (some "/venv".toList))
            ["pip".toList, "list".toList] true {}).1)) :=
  ⟨⟨by decide, by decide⟩,
    (C1_runner_executes_manager_prepared_command _ _ _ _ _ _ _
      (by decide) (by decide)).2.1⟩

/-- Tokenising a double-quoted segment: quote-free content becomes part of
the current token. -/
theorem shTokQ_append : ∀ (code : Str), '"' ∉ code →
    ∀ (rest acc : Str), shTokQ (code ++ '"' :: rest) acc = shTok rest (some (acc ++ code)) := by
  intro code
  induction code with
  | nil => intro _ rest acc; simp [shTokQ]
  | cons c cs ih =>
    intro hq rest acc
    have hc : ¬ (c = '"') := fun h => hq (by simp [h])
    have hcs : '"' ∉ cs := fun h => hq (List.mem_cons_of_mem _ h)
    simp only [List.cons_append, shTokQ, hc, if_neg, if_false, List.append_eq]
    rw [ih hcs rest (acc ++ [c])]
    simp

/-- A character distinct from `/` and absent from both parts is absent from
their `os.path.join`. -/
theorem not_mem_joinPath (c : Char) (a b : Str) (hc : c ≠ '/') (ha : c ∉ a) (hb : c ∉ b) :
    c ∉ joinPath a b := by
  unfold joinPath
  split
  · exact hb
  · split
    · intro h
      rcases List.mem_append.mp h with h | h
      · exact ha h
      · exact hb h
    · intro h
      rcases List.mem_append.mp h with h | h
      · exact ha h
      · rcases List.mem_cons.mp h with h | h
        · exact hc h
        · exact hb h

/-- Shell tokens of the progress-bar runner's activated `python -c` command:
the quoted inline code is one token. -/
theorem shellTokens_source_python_c (script code : Str)
    (hs : '"' ∉ script) (hc : '"' ∉ code) :
    shellTokens ("source \"".toList
        ++ (script ++ ('"' :: (" && python -c \"".toList ++ (code ++ ['"'])))))
      = ["source".toList, script, "&&".toList, "python".toList, "-c".toList, code] := by
  unfold shellTokens
  show shTok ('s' :: 'o' :: 'u' :: 'r' :: 'c' :: 'e' :: ' ' :: '"' ::
      (script ++ ('"' :: (' ' :: '&' :: '&' :: ' ' :: 'p' :: 'y' :: 't' :: 'h' :: 'o' :: 'n' ::
        ' ' :: '-' :: 'c' :: ' ' :: '"' :: (code ++ '"' :: []))))) none = _
  simp only [shTok]
  norm_num
  rw [shTokQ_append script hs]
  simp only [shTok, List.nil_append]
  norm_num
  rw [shTokQ_append code hc]
  simp [shTok]

/-- C7: the claim states that an activated-environment `python -c <code>`
prepared command keeps the inline code as one quoted shell token.  The
preparation inline in `EnvManager.run` joins all arguments with bare spaces:
at this concrete input the produced shell string word-splits the code
`print( 1 )` into three tokens, refuting the claim for that preparation
path. -/
theorem C7_counterexample :
    ((prepareCore
        { win := false, cwd := "/home/u".toList,
          executable := "/usr/bin/python3".toList, prefixDir := "/usr".toList }
        (fun p => p == "/venv/bin/activate".toList)
        (mkEnvMgr
          { win := false, cwd := "/home/u".toList,
            executable := "/usr/bin/python3".toList, prefixDir := "/usr".toList }
          { environ := [], sysPath := [] } (some "/venv".toList))
        ["python".toList, "-c".toList, "print( 1 )".toList] true {}).1
      = Sum.inl "source \"/venv/bin/activate\" && python -c print( 1 )".toList) ∧
    shellTokens "source \"/venv/bin/activate\" && python -c print( 1 )".toList
      = ["source".toList, "/venv/bin/activate".toList, "&&".toList, "python".toList,
         "-c".toList, "print(".toList, "1".toList, ")".toList] ∧
    shellTokens "source \"/venv/bin/activate\" && python -c print( 1 )".toList
      ≠ ["source".toList, "/venv/bin/activate".toList, "&&".toList, "python".toList,
         "-c".toList, "print( 1 )".toList] := by
  decide

/-- C7 (amended): only the progress-bar runner's `prepare_command`
(progress_runner.py) wraps the inline code of `python -c` in double quotes;
for that preparation, code free of double quotes — spaces and single quotes
included — stays a single shell token, while `EnvManager.run`'s inline
preparation word-splits it. -/
theorem C7_progress_runner_quotes_inline_code
    (sys : SysCtx) (fs : Str → Bool) (env : Environment) (code : Str)
    (hwin : sys.win = false)
    (hact : fs (joinPath env.bin "activate".toList) = true)
    (hbin : '"' ∉ env.bin) (hcode : '"' ∉ code) :
    ∃ s, (pbPrepareCommand sys fs env ["python".toList, "-c".toList, code]).1 = Sum.inl s ∧
      shellTokens s
        = ["source".toList, joinPath env.bin "activate".toList, "&&".toList,
           "python".toList, "-c".toList, code] := by
  have hscript : '"' ∉ joinPath env.bin "activate".toList :=
    not_mem_joinPath _ _ _ (by decide) hbin (by decide)
  refine ⟨"source \"".toList ++ (joinPath env.bin "activate".toList
      ++ ('"' :: (" && python -c \"".toList ++ (code ++ ['"'])))), ?_, ?_⟩
  · simp at hact
    simp [pbPrepareCommand, hwin, hact, joinSpace]
  · exact shellTokens_source_python_c _ _ hscript hcode

/-- C2 witness: concrete scoped use with two packages and a raising body:
construction traces nothing, the full scope traces one install and one
uninstall per package. -/
theorem C2_witness :
    ((fun _ => true : List Str → Bool) ["pip".toList, "install".toList, "p".toList] = true ∧
      (ipcmWith (fun _ => true) ["a".toList, "b".toList] [] true []).2
        = [pmInstallCmd "a".toList [], pmInstallCmd "b".toList [],
           pmUninstallCmd "a".toList, pmUninstallCmd "b".toList]) := by
  refine ⟨rfl, ?_⟩
  have h := C2_install_timing (fun _ => true) "p".toList ["a".toList, "b".toList] [] true []
    rfl rfl (fun p _ => rfl) (fun p _ => rfl)
  simpa using h.2.2.2

/-- C7 witness: a concrete POSIX context, a virtual environment with an
activation script, and inline code containing spaces, where the
progress-runner preparation keeps the code as one token. -/
theorem C7_witness :
    (({ win := false, cwd := "/h".toList, executable := "/usr/bin/python3".toList,
        prefixDir := "/usr".toList } : SysCtx).win = false ∧
      (fun p => p == "/venv/bin/activate".toList)
        (joinPath
          ({ root := "/venv".toList, bin := "/venv/bin".toList,
             lib := "/venv/lib".toList, python := "/venv/bin/python".toList,
             name := "venv".toList, is_virtual := true } : Environment).bin
          "activate".toList) = true ∧
      '"' ∉ ({ root := "/venv".toList, bin := "/venv/bin".toList,
               lib := "/venv/lib".toList, python := "/venv/bin/python".toList,
               name := "venv".toList, is_virtual := true } : Environment).bin ∧
      '"' ∉ "print( 2 )".toList) ∧
    (∃ s,
      (pbPrepareCommand
        { win := false, cwd := "/h".toList, executable := "/usr/bin/python3".toList,
          prefixDir := "/usr".toList }
        (fun p => p == "/venv/bin/activate".toList)
        { root := "/venv".toList, bin := "/venv/bin".toList,
          lib := "/venv/lib".toList, python := "/venv/bin/python".toList,
          name := "venv".toList, is_virtual := true }
        ["python".toList, "-c".toList, "print( 2 )".toList]).1 = Sum.inl s ∧
      shellTokens s
        = ["source".toList,
           joinPath
             ({ root := "/venv".toList, bin := "/venv/bin".toList,
                lib := "/venv/lib".toList, python := "/venv/bin/python".toList,
                name := "venv".toList, is_virtual := true } : Environment).bin
             "activate".toList,
           "&&".toList, "python".toList, "-c".toList, "print( 2 )".toList]) :=
  ⟨⟨rfl, by decide, by decide, by decide⟩,
    C7_progress_runner_quotes_inline_code
      { win := false, cwd := "/h".toList, executable := "/usr/bin/python3".toList,
        prefixDir := "/usr".toList }
      (fun p => p == "/venv/bin/activate".toList)
      { root := "/venv".toList, bin := "/venv/bin".toList,
        lib := "/venv/lib".toList, python := "/venv/bin/python".toList,
        name := "venv".toList, is_virtual := true }
      "print( 2 )".toList rfl (by decide) (by decide) (by decide)⟩

/-- C6 counterexample: the claim promises `new_state[key] == v` for every
stored key, but the save path funnels each key through configparser's
`optionxform` (`str.lower`): a state holding key `K` saves and loads back as
key `k`, and looking up `K` in the reloaded state fails. -/
theorem C6_counterexample :
    ∃ lines, gsSave [(['K'], JValue.num 1)] = .ok lines ∧
      gsLoad [] (some lines) = [(['k'], JValue.num 1)] ∧
      alookup ['K'] (gsLoad [] (some lines)) = none := by
  exact ⟨iniRender [(['k'], ['1'])], by decide, by decide, by decide⟩

/-- C6 (amended): for states whose keys survive `optionxform` unchanged
(non-empty, lower-case-stable, free of whitespace and of the INI
metacharacters), are pairwise distinct, and whose values are JSON-safe
(null, booleans, integers, printable-ASCII strings without `"`, `\` or `%`,
and nested arrays/objects of those), `save()` succeeds and a subsequent
`load` of the written file restores exactly the original mapping.  The
original claim fails both for keys that lower-casing changes
(`C6_counterexample`) and for string values containing `%`, which make
`config.set` raise `ValueError` inside `save`. -/
theorem C6_round_trip (st : GState)
    (hk : ∀ kv ∈ st, keySafe kv.1 = true) (hj : ∀ kv ∈ st, jsafe kv.2 = true)
    (hnd : (st.map Prod.fst).Nodup) :
    ∃ lines, gsSave st = .ok lines ∧ gsLoad [] (some lines) = st := by
  refine ⟨iniRender (st.map (fun kv => (kv.1, encVal kv.2))), ?_, ?_⟩
  · exact gsSave_ok st (fun kv hkv => ⟨hk kv hkv, hj kv hkv⟩) hnd
  · have hmem : ∀ kv2 ∈ st.map (fun kv => (kv.1, encVal kv.2)),
        keySafe kv2.1 = true ∧ entryValOk kv2.2 = true := by
      intro kv2 hkv2
      obtain ⟨kv, hkv, rfl⟩ := List.mem_map.mp hkv2
      exact ⟨hk kv hkv, entryValOk_encVal kv.2 (hj kv hkv)⟩
    have hnd2 : ((st.map (fun kv => (kv.1, encVal kv.2))).map Prod.fst).Nodup := by
      rw [List.map_map]
      exact hnd
    rw [gsLoad_render [] _ hmem hnd2]
    rw [List.map_map]
    apply map_id_of_mem
    intro kv hkv
    have hdec : jsonDecodeOrRaw (encVal kv.2) = kv.2 := by
      unfold jsonDecodeOrRaw
      rw [jsonDecode_encVal kv.2 (hj kv hkv)]
    show (kv.1, jsonDecodeOrRaw (encVal kv.2)) = kv
    rw [hdec]

/-- C6 witness: a two-key state (an integer and a string) that saves and
reloads to itself. -/
theorem C6_witness :
    ((∀ kv ∈ ([(['a'], JValue.num (-3)), (['b'], JValue.str ['h', 'i'])] : GState),
        keySafe kv.1 = true) ∧
      (∀ kv ∈ ([(['a'], JValue.num (-3)), (['b'], JValue.str ['h', 'i'])] : GState),
        jsafe kv.2 = true) ∧
      (([(['a'], JValue.num (-3)), (['b'], JValue.str ['h', 'i'])] : GState).map
        Prod.fst).Nodup) ∧
    (∃ lines,
      gsSave [(['a'], JValue.num (-3)), (['b'], JValue.str ['h', 'i'])] = .ok lines ∧
      gsLoad [] (some lines)
        = [(['a'], JValue.num (-3)), (['b'], JValue.str ['h', 'i'])]) :=
  ⟨⟨by decide, by decide, by decide⟩,
    C6_round_trip [(['a'], JValue.num (-3)), (['b'], JValue.str ['h', 'i'])]
      (by decide) (by decide) (by decide)⟩

/-- C9 counterexample: the claim says an invalid-JSON value never raises and
is retained as the raw string while valid siblings decode.  But `load` reads
values through `BasicInterpolation`: a stray `%` in the stored text (here
`%x`, which is also invalid JSON) makes `config.items('state')` raise after
`clear()`, so the caught exception leaves the state empty — the bad key is
not retained and the valid sibling `b = 1` is lost too. -/
theorem C9_counterexample :
    gsLoad [] (some ["[state]".toList, "a = %x".toList, "b = 1".toList]) = [] ∧
    ¬(alookup ['a'] (gsLoad []
        (some ["[state]".toList, "a = %x".toList, "b = 1".toList]))
      = some (JValue.str "%x".toList)) ∧
    ¬(alookup ['b'] (gsLoad []
        (some ["[state]".toList, "a = %x".toList, "b = 1".toList]))
      = some (JValue.num 1)) := by
  decide

/-- C9 (amended): for a backing file holding, under `optionxform`-stable
distinct keys, raw values that interpolation accepts unchanged (single-line,
`%`-free, not whitespace-padded), construction never raises: every value
that is valid JSON decodes, and every other value is retained as the
literal raw string.  The original claim fails when the invalid-JSON value
contains `%` (`C9_counterexample`), which empties the whole store. -/
theorem C9_degradation (st0 : GState) (es : IniSection)
    (hk : ∀ kv ∈ es, keySafe kv.1 = true) (hv : ∀ kv ∈ es, entryValOk kv.2 = true)
    (hnd : (es.map Prod.fst).Nodup) :
    gsLoad st0 (some (iniRender es)) = es.map (fun kv => (kv.1, jsonDecodeOrRaw kv.2)) :=
  gsLoad_render st0 es (fun kv hkv => ⟨hk kv hkv, hv kv hkv⟩) hnd

/-- C9 witness: a file with one invalid-JSON value (`nope`) and one valid
sibling (`1`): the former loads as the raw string, the latter as the
integer, regardless of the prior in-memory state. -/
theorem C9_witness :
    ((∀ kv ∈ ([(['a'], "nope".toList), (['b'], ['1'])] : IniSection),
        keySafe kv.1 = true) ∧
      (∀ kv ∈ ([(['a'], "nope".toList), (['b'], ['1'])] : IniSection),
        entryValOk kv.2 = true) ∧
      (([(['a'], "nope".toList), (['b'], ['1'])] : IniSection).map Prod.fst).Nodup) ∧
    gsLoad [(['z'], JValue.null)]
        (some (iniRender [(['a'], "nope".toList), (['b'], ['1'])]))
      = [(['a'], JValue.str "nope".toList), (['b'], JValue.num 1)] :=
  ⟨⟨by decide, by decide, by decide⟩,
    (C9_degradation [(['z'], JValue.null)] [(['a'], "nope".toList), (['b'], ['1'])]
      (by decide) (by decide) (by decide)).trans (by decide)⟩

end PyEnvMgr
